import Mathlib

/-
Verification of the gNMI-to-NETCONF adapter (pkg/adapter) against its
specification.  The Go sources are embedded shallowly:

 * pure helpers (`gnmiFullPath`, `fixYangRegexp`, `pathToNetconfSubtree`,
   `mapPathToNetconf`, `jsonMapToXML`, `sortMapKeys`, `mapOperation`,
   `getLeafValue`, `getUnionValue`, ...) become Lean functions;
 * `strconv.ParseUint` / `ParseInt` are embedded following their documented
   algorithm (including the "return MaxUint64 on range error" behaviour);
 * the XML token stream of `encoding/xml` is modelled by `XmlTok`; the
   encoder's serialisation (including its escaping table) by `serializeToks`;
 * `regexp.Compile` / `MatchString` are abstracted by a `RegexOracle`
   parameter (a compiled regex is just its matching function);
 * the NETCONF session (`GetConfigSubtree` / `EditConfigCfg`) is a `Device`
   oracle, and every adapter operation additionally returns the list of
   device calls it made;
 * Go run-time panics (nil dereference, failed type assertion, slice index
   out of range) are modelled by an outer `Option`: `none` is a panic.

All machine integers are Nat/Int with explicit bounds where overflow matters.
-/

namespace GN

/-! ### Generic association-list helpers (Go `map[string]T` as seen by the code) -/

/-- Lookup in an association list; models reading a Go map (first binding wins;
all maps built by the embedded code have distinct keys). -/
def lookupA {α : Type} : List (String × α) → String → Option α
  | [], _ => none
  | (k, v) :: rest, key => if k = key then some v else lookupA rest key

/-- Update/insert in an association list; models `m[k] = v` on a Go map. -/
def updA {α : Type} : List (String × α) → String → α → List (String × α)
  | [], key, v => [(key, v)]
  | (k, w) :: rest, key, v =>
      if k = key then (k, v) :: rest else (k, w) :: updA rest key v

/-! ### gNMI wire data model -/

/-- gNMI `Encoding` enum (the values the adapter can receive). -/
inductive Encoding where
  | json | bytes | proto | ascii | jsonIetf
deriving DecidableEq, Repr

/-- gNMI `ModelData`. -/
structure ModelData where
  name : String
  organization : String
  version : String
deriving DecidableEq, Repr

/-- One step of a gNMI path.  `key` is the step's Go `map[string]string`,
represented in the (unspecified) order in which Go's `range` happens to
iterate it. -/
structure PathElem where
  name : String
  key : List (String × String)
deriving DecidableEq, Repr

/-- gNMI `Path`.  `elem = []` models a nil/empty `Elem` slice (protobuf
decoding never produces a non-nil empty slice). -/
structure Path where
  origin : String
  elem : List PathElem
deriving DecidableEq, Repr

/-- gNMI `UpdateResult_Operation`. -/
inductive UpdateOp where
  | del | replace | update
deriving DecidableEq, Repr

/-- gRPC status codes used by the adapter. -/
inductive GCode where
  | notFound | unimplemented | unknown | internal
deriving DecidableEq, Repr

/-- A gRPC status error as returned by the adapter. -/
structure GErr where
  code : GCode
  msg : String
deriving DecidableEq, Repr

/-- A generic JSON document (the decoded form of a `TypedValue` JSON payload).
Numbers are restricted to integers: Go decodes JSON numbers to float64 and
`fmt.Sprintf("%v", ...)` prints integer-valued float64 below 1e21 in plain
decimal form, which this model covers. Object field lists have distinct keys
(Go's `json.Unmarshal` produces a map). -/
inductive Json where
  | str (s : String)
  | num (n : Int)
  | bool (b : Bool)
  | null
  | arr (xs : List Json)
  | obj (fields : List (String × Json))

/-- gNMI `TypedValue` (the variants the adapter handles).  `jsonVal` is the
JSON-bytes variant as the Set path consumes it (payload kept in parsed
form); `jsonBytes` is the same wire variant as the Get path produces it
(payload as serialised bytes). -/
inductive TypedValue where
  | intVal (n : Int)
  | uintVal (n : Nat)
  | stringVal (s : String)
  | boolVal (b : Bool)
  | jsonVal (j : Json)
  | jsonBytes (s : String)

/-- gNMI `Update`. -/
structure Update where
  path : Path
  val : TypedValue

/-- gNMI `Notification` (prefix field named `pfx`). -/
structure Notification where
  timestamp : Int
  pfx : Option Path
  update : List Update

/-- gNMI `UpdateResult`. -/
structure UpdateResult where
  path : Path
  op : UpdateOp

/-- gNMI `SetResponse`. -/
structure SetResponse where
  pfx : Option Path
  response : List UpdateResult

/-- gNMI `GetRequest` (prefix field named `pfx`). -/
structure GetRequest where
  encoding : Encoding
  useModels : List ModelData
  pfx : Option Path
  path : List Path

/-- gNMI `SetRequest`: `del`/`replace`/`update` carry the client's declared
order.  A `replace`/`update` entry is an `Update`; its value may be absent
(`none` models a nil `TypedValue`). -/
structure SetRequest where
  pfx : Option Path
  del : List Path
  replace : List (Path × Option TypedValue)
  update : List (Path × Option TypedValue)

/-! ### Go string helpers -/

/-- ASCII part of Go's `unicode.IsSpace` (the adapter's data is ASCII). -/
def isSpaceGo (c : Char) : Bool :=
  c = ' ' || c = '\t' || c = '\n' || c = '\x0d' || c = '\x0b' || c = '\x0c'

/-- Go `strings.TrimSpace` (restricted to ASCII whitespace). -/
def trimSpace (s : String) : String :=
  ⟨((s.data.dropWhile isSpaceGo).reverse.dropWhile isSpaceGo).reverse⟩

/-- Error kind of `strconv.ParseUint`: bad character vs out of range. -/
inductive NumErr where
  | synErr | rangeErr
deriving DecidableEq, Repr

/-- Value of 1<<64 - 1, the `maxVal` of `ParseUint(s, 10, 64)`. -/
def u64max : Nat := 18446744073709551615

/-- The `cutoff` of `ParseUint` for base 10: `maxUint64/10 + 1`. -/
def u64cutoff : Nat := u64max / 10 + 1

/-- Decimal digit value, as `ParseUint` computes it. -/
def digitVal (c : Char) : Option Nat :=
  if '0' ≤ c ∧ c ≤ '9' then some (c.toNat - 48) else none

/-- Accumulating loop of Go `strconv.ParseUint(s, 10, 64)`:
on a non-digit it returns `(0, ErrSyntax)`; when the accumulator would
overflow uint64 it returns `(maxUint64, ErrRange)`. -/
def parseUintLoop : Nat → List Char → Nat × Option NumErr
  | n, [] => (n, none)
  | n, c :: cs =>
    match digitVal c with
    | none => (0, some NumErr.synErr)
    | some d =>
      if n ≥ u64cutoff then (u64max, some NumErr.rangeErr)
      else
        let n1 := n * 10 + d
        if n1 > u64max then (u64max, some NumErr.rangeErr)
        else parseUintLoop n1 cs

/-- Go `strconv.ParseUint(s, 10, 64)`; returns the value together with the
error kind if any (the empty string is a syntax error; no sign is permitted). -/
def parseUint64 (s : String) : Nat × Option NumErr :=
  if s = "" then (0, some NumErr.synErr) else parseUintLoop 0 s.data

/-- Digit-accumulation for `strconv.ParseInt(s, 10, 32)`; `none` models any
parse error (the caller `isValidInt` only distinguishes error from success). -/
def parseIntDigits : Nat → List Char → Option Nat
  | n, [] => some n
  | n, c :: cs =>
    match digitVal c with
    | none => none
    | some d => parseIntDigits (n * 10 + d) cs

/-- Go `strconv.ParseInt(s, 10, 32)` collapsed to `Option Int`: `none` on a
syntax error, an empty digit string, or a value outside int32 range (the
embedded caller treats every error alike). -/
def parseInt32 (s : String) : Option Int :=
  let (neg, digits) :=
    match s.data with
    | '-' :: rest => (true, rest)
    | '+' :: rest => (false, rest)
    | l => (false, l)
  match digits with
  | [] => none
  | _ =>
    match parseIntDigits 0 digits with
    | none => none
    | some n =>
      let v : Int := if neg then -(n : Int) else (n : Int)
      if -2147483648 ≤ v ∧ v ≤ 2147483647 then some v else none

/-! ### YANG schema model (goyang `yang.Entry` / `yang.YangType`) -/

/-- Kinds of `yang.TypeKind` the adapter distinguishes; every other kind is
collapsed into `yother` (the code treats them all in one default branch). -/
inductive YKind where
  | ystring | yint32 | yuint32 | yenum | yunion | yother (desc : String)
deriving DecidableEq, Repr

/-- goyang `yang.YangType`: its kind, its XSD patterns, its ranges
(`Min.Value`/`Max.Value` as integers) and, for a union, the ordered
alternative types. -/
inductive YangType where
  | mk (kind : YKind) (pattern : List String) (range : List (Int × Int))
       (subtypes : List YangType)

def YangType.kind : YangType → YKind
  | .mk k _ _ _ => k

def YangType.pattern : YangType → List String
  | .mk _ p _ _ => p

def YangType.range : YangType → List (Int × Int)
  | .mk _ _ r _ => r

def YangType.subtypes : YangType → List YangType
  | .mk _ _ _ ts => ts

/-- goyang `yang.Entry`: name, the child map `Dir` (`none` models a nil map,
as on leaves), whether `ListAttr` is set, and the leaf type `Type`
(`none` models a nil `Type`). -/
inductive SchemaEntry where
  | mk (name : String) (dir : Option (List (String × SchemaEntry)))
       (listAttr : Bool) (typ : Option YangType)

def SchemaEntry.name : SchemaEntry → String
  | .mk n _ _ _ => n

def SchemaEntry.dir : SchemaEntry → Option (List (String × SchemaEntry))
  | .mk _ d _ _ => d

def SchemaEntry.listAttr : SchemaEntry → Bool
  | .mk _ _ l _ => l

def SchemaEntry.typ : SchemaEntry → Option YangType
  | .mk _ _ _ t => t

/-- goyang `Entry.IsDir()`: the entry has a (non-nil) child map. -/
def SchemaEntry.isDir (e : SchemaEntry) : Bool := e.dir.isSome

/-- goyang `Entry.IsLeaf()`: no child map and no `ListAttr`. -/
def SchemaEntry.isLeaf (e : SchemaEntry) : Bool := !e.dir.isSome && !e.listAttr

/-- goyang `Entry.IsLeafList()`: no child map but `ListAttr` set. -/
def SchemaEntry.isLeafList (e : SchemaEntry) : Bool := !e.dir.isSome && e.listAttr

/-- goyang `Entry.IsList()`: child map present and `ListAttr` set. -/
def SchemaEntry.isList (e : SchemaEntry) : Bool := e.dir.isSome && e.listAttr

/-- goyang `Entry.IsContainer()`: child map present, no `ListAttr`. -/
def SchemaEntry.isContainer (e : SchemaEntry) : Bool := e.dir.isSome && !e.listAttr

/-- Embeds `getChildSchema` (get.go): `parent.Dir[name]`, where a nil map
yields nil. -/
def getChildSchema (name : String) (parent : SchemaEntry) : Option SchemaEntry :=
  match parent.dir with
  | none => none
  | some d => lookupA d name

/-- Embeds `getSchemaEntryForPath` (get.go): walk `entry.Dir[elem.Name]` step
by step, stopping with nil as soon as a step is missing. -/
def getSchemaEntryForPathLoop : SchemaEntry → List PathElem → Option SchemaEntry
  | e, [] => some e
  | e, el :: rest =>
    match getChildSchema el.name e with
    | none => none
    | some c => getSchemaEntryForPathLoop c rest

def getSchemaEntryForPath (root : SchemaEntry) (path : Path) : Option SchemaEntry :=
  getSchemaEntryForPathLoop root path.elem

/-- Embeds `gnmiFullPath` (util.go): the result keeps the path's origin; the
elems are `append(prefix.GetElem(), path.GetElem()...)` but ONLY when
`path.GetElem() != nil` - for an element-less path the result has no elems
at all (the prefix is dropped). -/
def gnmiFullPath (pfx path : Path) : Path :=
  { origin := path.origin
    elem := if path.elem ≠ [] then pfx.elem ++ path.elem else [] }

/-! ### Values decoded from NETCONF XML (`interface{}` values in the maps) -/

/-- The `interface{}` values the decoder stores: scalars from leaves, nil
(a union miss), nested maps for containers/list entries, and slices for
lists/leaf-lists. -/
inductive NVal where
  | vStr (s : String)
  | vUint (n : Nat)
  | vInt (n : Int)
  | vNil
  | vMap (m : List (String × NVal))
  | vArr (xs : List NVal)

/-! ### Regex oracle and `fixYangRegexp` / pattern matching -/

/-- Abstraction of a compiled `regexp.Regexp`: just its `MatchString`. -/
structure Regexp where
  matchString : String → Bool

/-- Abstraction of `regexp.Compile`: `none` models a compilation error. -/
structure RegexOracle where
  compile : String → Option Regexp

/-- Loop body of `fixYangRegexp` (get.go, lifted from ygot): iterates the
pattern's characters with their index (byte index in Go; the adapter's
patterns are ASCII so the two coincide), carrying `inEscape`, `prevChar`
and `addParens`. -/
def fixYangLoop : List Char → Nat → Nat → Bool → Char → Bool → String → String
  | [], _, _, _, _, _, buf => buf
  | ch :: rest, i, len, inEscape, prevChar, addParens, buf =>
    let p1 : String × Bool :=
      if i = 0 ∧ ch ≠ '^' then (buf ++ "^(", true) else (buf, addParens)
    let buf1 := p1.1
    let addParens1 := p1.2
    let buf2 :=
      if ch = '$' ∧ ¬inEscape ∧ i ≠ len - 1 then buf1.push '\\' else buf1
    let buf3 :=
      if ch = '^' ∧ ¬inEscape ∧ prevChar ≠ '[' ∧ i ≠ 0 then buf2.push '\\' else buf2
    let inEscape1 := !inEscape && (ch == '\\')
    let buf4 := buf3.push ch
    let buf5 :=
      if i = len - 1 then
        let b := if addParens1 then buf4.push ')' else buf4
        if ch ≠ '$' then b.push '$' else b
      else buf4
    fixYangLoop rest (i + 1) len inEscape1 ch addParens1 buf5

/-- Embeds `fixYangRegexp` (get.go): anchor a YANG/XSD pattern as `^(...)$`,
escaping interior `$` and `^` that are not already escaped. -/
def fixYangRegexp (pattern : String) : String :=
  fixYangLoop pattern.data 0 pattern.data.length false (Char.ofNat 0) false ""

/-- Embeds `patternMatches` (get.go):
`r, err := regexp.Compile(fixYangRegexp(p)); return err != nil && r.MatchString(v)`.
When compilation succeeds `err != nil` is false and the function returns
false without consulting the regex; when compilation fails `r` is nil and
`r.MatchString(v)` dereferences a nil pointer - a panic, modelled by `none`. -/
def patternMatches (o : RegexOracle) (v p : String) : Option Bool :=
  match o.compile (fixYangRegexp p) with
  | some r =>
    let errNonNil := false
    some (errNonNil && r.matchString v)
  | none => none

/-- Embeds `anyPatternMatches` (get.go): every pattern must "match";
a panic in `patternMatches` propagates. -/
def anyPatternMatches (o : RegexOracle) (v : String) : List String → Option Bool
  | [] => some true
  | p :: ps =>
    match patternMatches o v p with
    | none => none
    | some b => if b then anyPatternMatches o v ps else some false

/-- Embeds `isValidString` (get.go). -/
def isValidString (o : RegexOracle) (v : String) (t : YangType) : Option Bool :=
  anyPatternMatches o v t.pattern

/-- Embeds `isValidInt` (get.go): parse as int32; the value is accepted iff it
lies in at least one declared range (`none` models the nil return). -/
def isValidInt (v : String) (t : YangType) : Option Int :=
  match parseInt32 v with
  | none => none
  | some val =>
    match t.range.find? (fun r => r.1 ≤ val ∧ val ≤ r.2) with
    | some _ => some val
    | none => none

/-- Embeds `getUnionValue` (get.go): try the alternatives in declared order;
the inner `Except` is the function's `(interface{}, error)` result, the
outer `Option` propagates a panic from pattern matching. -/
def getUnionValue (o : RegexOracle) (v : String) :
    List YangType → Option (Except GErr NVal)
  | [] => some (Except.error ⟨GCode.notFound, "failed to set union value"⟩)
  | t :: ts =>
    match t.kind with
    | YKind.ystring =>
      match isValidString o v t with
      | none => none
      | some true => some (Except.ok (NVal.vStr v))
      | some false => getUnionValue o v ts
    | YKind.yint32 =>
      match isValidInt v t with
      | some val => some (Except.ok (NVal.vInt val))
      | none => getUnionValue o v ts
    | _ => getUnionValue o v ts

/-- Embeds `getLeafValue` (get.go): dispatch on `schema.Type.Kind`; a nil
`Type` would be a nil dereference (`none`).  For a union the error of
`getUnionValue` is discarded, storing the nil value. -/
def getLeafValue (o : RegexOracle) (v : String) (schema : SchemaEntry) : Option NVal :=
  match schema.typ with
  | none => none
  | some t =>
    match t.kind with
    | YKind.ystring => some (NVal.vStr (trimSpace v))
    | YKind.yunion =>
      match getUnionValue o (trimSpace v) t.subtypes with
      | none => none
      | some (Except.ok val) => some val
      | some (Except.error _) => some NVal.vNil
    | YKind.yuint32 => some (NVal.vUint (parseUint64 (trimSpace v)).1)
    | YKind.yenum => some (NVal.vStr (trimSpace v))
    | _ => some (NVal.vStr (trimSpace v))

/-! ### XML tokens and the `encoding/xml` encoder -/

/-- The `encoding/xml` tokens the adapter emits or consumes.  `start` carries
the attribute list (the decoder never reads attributes; the encoder emits at
most the `operation` attribute). -/
inductive XmlTok where
  | start (name : String) (attrs : List (String × String))
  | endEl (name : String)
  | chardata (s : String)
  | comment (s : String)
  | procInst (s : String)
  | directive (s : String)

/-- Escaping table of Go `xml.EscapeText` / `EscapeString` (used for both
character data and attribute values; invalid runes, which the adapter never
produces, are out of scope). -/
def xmlEscChar (c : Char) : String :=
  if c = '"' then "&#34;"
  else if c = '\'' then "&#39;"
  else if c = '&' then "&amp;"
  else if c = '<' then "&lt;"
  else if c = '>' then "&gt;"
  else if c = '\t' then "&#x9;"
  else if c = '\n' then "&#xA;"
  else if c = '\x0d' then "&#xD;"
  else String.singleton c

def xmlEscape (s : String) : String :=
  s.data.foldl (fun acc c => acc ++ xmlEscChar c) ""

/-- Serialisation of one token by `xml.Encoder.EncodeToken` (no indentation;
attributes in order, values escaped).  Comments, directives and processing
instructions never reach the encoder in this code base. -/
def serializeTok : XmlTok → String
  | XmlTok.start n attrs =>
    "<" ++ n ++ (attrs.foldl (fun acc kv => acc ++ " " ++ kv.1 ++ "=\"" ++ xmlEscape kv.2 ++ "\"") "") ++ ">"
  | XmlTok.endEl n => "</" ++ n ++ ">"
  | XmlTok.chardata s => xmlEscape s
  | XmlTok.comment _ => ""
  | XmlTok.procInst _ => ""
  | XmlTok.directive _ => ""

/-- Output of an `xml.Encoder` after `Flush`: the concatenation of its
serialised tokens. -/
def serializeToks (toks : List XmlTok) : String :=
  toks.foldl (fun acc t => acc ++ serializeTok t) ""

/-! ### Path codec - outbound (get.go `pathToNetconfSubtree`) -/

/-- Key/value children of one path step, as the `for k, v := range elem.Key`
loop emits them (in the list's - i.e. the Go map iteration's - order). -/
def keyToks (keys : List (String × String)) : List XmlTok :=
  keys.flatMap (fun kv => [XmlTok.start kv.1 [], XmlTok.chardata kv.2, XmlTok.endEl kv.1])

/-- Embeds `pathToNetconfSubtree` (get.go): nil for an element-less path,
otherwise start elements with their keys in path order followed by the end
elements in reverse order, serialised to one string. -/
def pathToNetconfSubtree (path : Path) : Option String :=
  if path.elem = [] then none
  else
    some (serializeToks
      (path.elem.flatMap (fun e => XmlTok.start e.name [] :: keyToks e.key)
        ++ path.elem.reverse.map (fun e => XmlTok.endEl e.name)))

/-- Go's `<` on strings, bytewise lexicographic (ASCII here): the order
`sort.Slice`/`sort.Strings` uses. -/
def goCharsLess : List Char → List Char → Bool
  | [], [] => false
  | [], _ :: _ => true
  | _ :: _, [] => false
  | c :: cs, d :: ds =>
    if c.toNat < d.toNat then true
    else if d.toNat < c.toNat then false
    else goCharsLess cs ds

def goStringLess (a b : String) : Bool := goCharsLess a.data b.data

/-- Reflexive closure of Go's string order, used as the sortedness relation. -/
def strLe (a b : String) : Prop := goStringLess b a = false

instance : DecidableRel strLe := fun a b => instDecidableEqBool (goStringLess b a) false

/-- Specification-side variant of `pathToNetconfSubtree`, following the spec's
words: the key children of every step are emitted in sorted order of key
name.  Used only to compare with the source-derived definition. -/
def keyLE (a b : String × String) : Prop := strLe a.1 b.1

instance : DecidableRel keyLE := fun a b => instDecidableEqBool (goStringLess b.1 a.1) false

def pathToNetconfSubtreeSortedSpec (path : Path) : Option String :=
  if path.elem = [] then none
  else
    some (serializeToks
      (path.elem.flatMap
          (fun e => XmlTok.start e.name [] :: keyToks (e.key.insertionSort keyLE))
        ++ path.elem.reverse.map (fun e => XmlTok.endEl e.name)))

/-! ### Set translator - operation names and path mapping (set.go) -/

/-- Embeds `mapOperation` (set.go). -/
def mapOperation : UpdateOp → String
  | UpdateOp.del => "delete"
  | UpdateOp.replace => "replace"
  | UpdateOp.update => "merge"

/-- Embeds `mapPathToNetconf` (set.go): start elements with their keys, the
`operation` attribute attached to the start element of the last path step. -/
def mapPathToNetconf : List PathElem → UpdateOp → List XmlTok
  | [], _ => []
  | [e], op =>
    XmlTok.start e.name [("operation", mapOperation op)] :: keyToks e.key
  | e :: rest, op =>
    (XmlTok.start e.name [] :: keyToks e.key) ++ mapPathToNetconf rest op

/-- Specification-side variant of `mapPathToNetconf` with each step's keys
emitted in sorted order of key name. -/
def mapPathToNetconfSortedSpec : List PathElem → UpdateOp → List XmlTok
  | [], _ => []
  | [e], op =>
    XmlTok.start e.name [("operation", mapOperation op)]
      :: keyToks (e.key.insertionSort keyLE)
  | e :: rest, op =>
    (XmlTok.start e.name [] :: keyToks (e.key.insertionSort keyLE))
      ++ mapPathToNetconfSortedSpec rest op

/-! ### JSON payloads to XML (set.go `jsonMapToXML`, `sortMapKeys`) -/

/-- Looking a key up in an association list yields a strictly smaller value
(used for termination of the recursion through Go-map lookups). -/
def lookupA_sizeOf {α : Type} [SizeOf α] :
    ∀ (m : List (String × α)) (k : String) (v : α),
      lookupA m k = some v → sizeOf v < sizeOf m := by
  intro m
  induction m with
  | nil => intro k v h; simp [lookupA] at h
  | cons hd tl ih =>
    intro k v h
    rw [lookupA] at h
    by_cases hk : hd.1 = k
    · rw [if_pos hk] at h
      cases h
      cases hd with
      | mk k1 v1 => simp; omega
    · rw [if_neg hk] at h
      have := ih k v h
      cases hd with
      | mk k1 v1 => simp; omega

/-- Embeds `sortMapKeys` (set.go): the map's keys sorted ascending
(`sort.Slice` with `<`; for the distinct keys of a Go map this is the same
ordering as insertion sort with `≤`). -/
def sortMapKeys (input : List (String × Json)) : List String :=
  (input.map Prod.fst).insertionSort strLe

/-- Tokens produced by `jsonMapToXML`: that function only ever builds
`xml.StartElement` values without attributes, character data, and end
elements; `PTok` records this. -/
inductive PTok where
  | pstart (name : String)
  | pchar (s : String)
  | pend (name : String)

def ptokToXml : PTok → XmlTok
  | PTok.pstart n => XmlTok.start n []
  | PTok.pchar s => XmlTok.chardata s
  | PTok.pend n => XmlTok.endEl n

mutual

/-- Go `fmt.Sprintf("%v", x)` for a decoded JSON value (the `default` branch
of `jsonMapToXML` and the leaf branch of `mapSetValueToNetconf`): strings
verbatim, numbers in decimal, booleans `true`/`false`, nil `<nil>`, slices
space-separated in brackets, maps `map[k:v ...]` with sorted keys. -/
def fmtGoJson : Json → String
  | Json.str s => s
  | Json.num n => toString n
  | Json.bool b => if b then "true" else "false"
  | Json.null => "<nil>"
  | Json.arr xs => "[" ++ fmtJsonList xs ++ "]"
  | Json.obj fields => "map[" ++ fmtJsonFields fields (sortMapKeys fields) ++ "]"
termination_by j => (sizeOf j, 0)

def fmtJsonList : List Json → String
  | [] => ""
  | [x] => fmtGoJson x
  | x :: y :: rest => fmtGoJson x ++ " " ++ fmtJsonList (y :: rest)
termination_by xs => (sizeOf xs, 0)

def fmtJsonFields (input : List (String × Json)) : List String → String
  | [] => ""
  | [k] =>
    k ++ ":" ++ (match h : lookupA input k with
                 | some v =>
                   have hlt : sizeOf v < sizeOf input := lookupA_sizeOf input k v h
                   fmtGoJson v
                 | none => "<nil>")
  | k :: k2 :: ks =>
    (k ++ ":" ++ (match h : lookupA input k with
                  | some v =>
                    have hlt : sizeOf v < sizeOf input := lookupA_sizeOf input k v h
                    fmtGoJson v
                  | none => "<nil>"))
      ++ " " ++ fmtJsonFields input (k2 :: ks)
termination_by ks => (sizeOf input, ks.length)

end

mutual

/-- Embeds `jsonMapToXML` (set.go): iterate the map's keys in sorted order;
an object value recurses, any other value becomes character data via
`fmt.Sprintf("%v", ...)`.  The function's `error` result is always nil here
because the modelled encoder never fails. -/
def jsonMapToXML (input : List (String × Json)) : List PTok :=
  emitSortedKeys input (sortMapKeys input)
termination_by (sizeOf input, (sortMapKeys input).length + 1)

/-- Key loop of `jsonMapToXML`; the `none` lookup branch is unreachable
because the keys come from the map itself (Go would format the nil
interface). -/
def emitSortedKeys (input : List (String × Json)) : List String → List PTok
  | [] => []
  | k :: ks =>
    (PTok.pstart k ::
      ((match h : lookupA input k with
        | some (Json.obj fields) =>
          have hlt : sizeOf fields < sizeOf input := by
            have h2 := lookupA_sizeOf input k _ h
            simp at h2
            omega
          jsonMapToXML fields
        | some v => [PTok.pchar (fmtGoJson v)]
        | none => [PTok.pchar "<nil>"])
        ++ [PTok.pend k]))
      ++ emitSortedKeys input ks
termination_by ks => (sizeOf input, ks.length)

end

/-! ### Set translator (set.go) -/

/-- Result of `mapValue`: either the generic value decoded from a JSON
payload (directory case) or the scalar delivered by `value.ToScalar`. -/
inductive GoVal where
  | gJson (j : Json)
  | gInt (n : Int)
  | gUint (n : Nat)
  | gStr (s : String)
  | gBool (b : Bool)

/-- Models `value.ToScalar` of the openconfig gnmi value package: scalar
variants map to Go scalars, a JSON value is an error. -/
def toScalar : TypedValue → Except String GoVal
  | TypedValue.intVal n => Except.ok (GoVal.gInt n)
  | TypedValue.uintVal n => Except.ok (GoVal.gUint n)
  | TypedValue.stringVal s => Except.ok (GoVal.gStr s)
  | TypedValue.boolVal b => Except.ok (GoVal.gBool b)
  | TypedValue.jsonVal _ => Except.error "non-scalar type"
  | TypedValue.jsonBytes _ => Except.error "non-scalar type"

/-- Go `fmt.Sprintf("%v", editValue)` for the leaf branch of
`mapSetValueToNetconf`. -/
def fmtGoScalar : GoVal → String
  | GoVal.gInt n => toString n
  | GoVal.gUint n => toString n
  | GoVal.gStr s => s
  | GoVal.gBool b => if b then "true" else "false"
  | GoVal.gJson j => fmtGoJson j

/-- Embeds `mapValue` (set.go): for a directory entry decode the JSON payload
(a nil or non-JSON `TypedValue` makes `json.Unmarshal` fail); for a leaf use
`value.ToScalar`.  Both failures surface as code `Unknown`. -/
def mapValue (entry : SchemaEntry) (inval : Option TypedValue) : Except GErr GoVal :=
  if entry.isDir then
    match inval with
    | some (TypedValue.jsonVal j) => Except.ok (GoVal.gJson j)
    | _ => Except.error ⟨GCode.unknown, "invalid value"⟩
  else
    match inval with
    | some tv =>
      match toScalar tv with
      | Except.ok s => Except.ok s
      | Except.error _ => Except.error ⟨GCode.unknown, "invalid value"⟩
    | none => Except.error ⟨GCode.unknown, "invalid value"⟩

/-- Embeds `mapSetValueToNetconf` (set.go): a directory entry asserts the
decoded value to be a JSON object (`editValue.(map[string]interface{})`;
any other shape is a run-time panic, `none`) and recurses through
`jsonMapToXML`; a leaf emits the scalar as character data. -/
def mapSetValueToNetconf (schema : SchemaEntry) (inval : Option TypedValue) :
    Option (Except GErr (List XmlTok)) :=
  match mapValue schema inval with
  | Except.error e => some (Except.error e)
  | Except.ok editValue =>
    if schema.isDir then
      match editValue with
      | GoVal.gJson (Json.obj fields) =>
        some (Except.ok ((jsonMapToXML fields).map ptokToXml))
      | _ => none
    else
      some (Except.ok [XmlTok.chardata (fmtGoScalar editValue)])

/-- The adapter's `Model`: advertised models and the schema tree root. -/
structure Model where
  modelData : List ModelData
  schemaTreeRoot : SchemaEntry

/-- The `Adapter` itself (its NETCONF session is passed separately as a
`Device` oracle). -/
structure Adapter where
  model : Model

/-- Token stream of the edit-config document produced by
`gnmiToNetconfOperation` once the schema entry is resolved: the path tokens
(with the `operation` attribute on the terminal step), then - for non-DELETE
- the value body, then the closing end elements in reverse path order. -/
def editDocTokens (entry : SchemaEntry) (fullPath : Path) (op : UpdateOp)
    (inval : Option TypedValue) : Option (Except GErr (List XmlTok)) :=
  let pathToks := mapPathToNetconf fullPath.elem op
  let closers := fullPath.elem.reverse.map (fun e => XmlTok.endEl e.name)
  if op = UpdateOp.del then some (Except.ok (pathToks ++ closers))
  else
    match mapSetValueToNetconf entry inval with
    | none => none
    | some (Except.error e) => some (Except.error e)
    | some (Except.ok valToks) => some (Except.ok (pathToks ++ valToks ++ closers))

/-- Embeds `gnmiToNetconfOperation` (set.go): resolve the full path (prefix
prepended when present), fail `NotFound` when the schema does not contain
it, otherwise serialise the edit-config tokens; an empty document is
returned as nil. -/
def gnmiToNetconfOperation (a : Adapter) (op : UpdateOp) (pfx : Option Path)
    (path : Path) (inval : Option TypedValue) : Option (Except GErr (Option String)) :=
  let fullPath := match pfx with
                  | some p => gnmiFullPath p path
                  | none => path
  match getSchemaEntryForPath a.model.schemaTreeRoot fullPath with
  | none => some (Except.error ⟨GCode.notFound, "path not found (Test)"⟩)
  | some entry =>
    match editDocTokens entry fullPath op inval with
    | none => none
    | some (Except.error e) => some (Except.error e)
    | some (Except.ok toks) =>
      let filter := serializeToks toks
      if filter.length = 0 then some (Except.ok none)
      else some (Except.ok (some filter))

/-! ### Device session oracle -/

/-- One call on the NETCONF session. -/
inductive DevCall where
  | getCfg (filter : Option String)
  | editCfg (payload : Option String)

/-- The NETCONF session as an oracle: `getResp` answers `GetConfigSubtree`
with an error or the token stream of the result document; `editResp`
answers `EditConfigCfg` with `some errmsg` on failure, `none` on success. -/
structure Device where
  getResp : Option String → Except String (List XmlTok)
  editResp : Option String → Option String

/-- Embeds `executeOperation` (set.go): translate, fail without touching the
device on a translation error, otherwise issue exactly one edit-config and
report `UpdateResult{path, op}` or code `Unknown`.  The second component
lists the device calls made. -/
def executeOperation (a : Adapter) (dev : Device) (op : UpdateOp)
    (pfx : Option Path) (path : Path) (inval : Option TypedValue) :
    Option (Except GErr UpdateResult × List DevCall) :=
  match gnmiToNetconfOperation a op pfx path inval with
  | none => none
  | some (Except.error e) => some (Except.error e, [])
  | some (Except.ok request) =>
    match dev.editResp request with
    | some _ => some (Except.error ⟨GCode.unknown, "edit failed"⟩, [DevCall.editCfg request])
    | none => some (Except.ok ⟨path, op⟩, [DevCall.editCfg request])

/-! ### Set RPC (set.go `Set`) -/

/-- One element of a Set request together with its operation. -/
structure SetElem where
  op : UpdateOp
  path : Path
  val : Option TypedValue

/-- Sequential processing of Set elements: execute in order, abort on the
first error (Go returns `nil, err` immediately), collect one `UpdateResult`
and the device calls per element. -/
def processElems (a : Adapter) (dev : Device) (pfx : Option Path) :
    List SetElem → Option (Except GErr (List UpdateResult) × List DevCall)
  | [] => some (Except.ok [], [])
  | e :: es =>
    match executeOperation a dev e.op pfx e.path e.val with
    | none => none
    | some (Except.error err, tr) => some (Except.error err, tr)
    | some (Except.ok r, tr) =>
      match processElems a dev pfx es with
      | none => none
      | some (Except.error err, tr2) => some (Except.error err, tr ++ tr2)
      | some (Except.ok rs, tr2) => some (Except.ok (r :: rs), tr ++ tr2)

def setElemsDelete (req : SetRequest) : List SetElem :=
  req.del.map (fun p => ⟨UpdateOp.del, p, none⟩)

def setElemsReplace (req : SetRequest) : List SetElem :=
  req.replace.map (fun u => ⟨UpdateOp.replace, u.1, u.2⟩)

def setElemsUpdate (req : SetRequest) : List SetElem :=
  req.update.map (fun u => ⟨UpdateOp.update, u.1, u.2⟩)

/-- All elements of a Set request in processing order:
deletes, then replaces, then updates. -/
def setElems (req : SetRequest) : List SetElem :=
  setElemsDelete req ++ (setElemsReplace req ++ setElemsUpdate req)

/-- Embeds `Set` (set.go): the three loops over the delete, replace and
update lists in that order, accumulating `UpdateResult`s, aborting on the
first error. -/
def SetRpc (a : Adapter) (dev : Device) (req : SetRequest) :
    Option (Except GErr SetResponse × List DevCall) :=
  match processElems a dev req.pfx (setElemsDelete req) with
  | none => none
  | some (Except.error e, tr) => some (Except.error e, tr)
  | some (Except.ok rs1, tr1) =>
    match processElems a dev req.pfx (setElemsReplace req) with
    | none => none
    | some (Except.error e, tr) => some (Except.error e, tr1 ++ tr)
    | some (Except.ok rs2, tr2) =>
      match processElems a dev req.pfx (setElemsUpdate req) with
      | none => none
      | some (Except.error e, tr) => some (Except.error e, tr1 ++ tr2 ++ tr)
      | some (Except.ok rs3, tr3) =>
        some (Except.ok ⟨req.pfx, rs1 ++ rs2 ++ rs3⟩, tr1 ++ tr2 ++ tr3)

/-! ### JSON marshalling of decoded values (Go `json.Marshal` on the
intermediate map, used by `buildGnmiNotification`) -/

def hexDigit (n : Nat) : Char :=
  if n < 10 then Char.ofNat (48 + n) else Char.ofNat (87 + n)

/-- Escaping of Go `encoding/json` strings (HTML escaping on, as in
`json.Marshal`). -/
def jsonEscChar (c : Char) : String :=
  if c = '"' then "\\\""
  else if c = '\\' then "\\\\"
  else if c = '<' then "\\u003c"
  else if c = '>' then "\\u003e"
  else if c = '&' then "\\u0026"
  else if c = '\n' then "\\n"
  else if c = '\x0d' then "\\r"
  else if c = '\t' then "\\t"
  else if c.toNat < 32 then
    "\\u00" ++ String.singleton (hexDigit (c.toNat / 16))
      ++ String.singleton (hexDigit (c.toNat % 16))
  else String.singleton c

def jsonEscape (s : String) : String :=
  s.data.foldl (fun acc c => acc ++ jsonEscChar c) ""

def sortKeysN (m : List (String × NVal)) : List String :=
  (m.map Prod.fst).insertionSort strLe

mutual

/-- Go `json.Marshal` of an intermediate-tree value: maps with sorted keys,
scalars in their JSON form (uint64/int64 decimal, strings quoted). -/
def jsonMarshal : NVal → String
  | NVal.vStr s => "\"" ++ jsonEscape s ++ "\""
  | NVal.vUint n => toString n
  | NVal.vInt n => toString n
  | NVal.vNil => "null"
  | NVal.vMap m => "\x7b" ++ marshalFields m (sortKeysN m) ++ "\x7d"
  | NVal.vArr xs => "[" ++ marshalList xs ++ "]"
termination_by v => (sizeOf v, 0)

def marshalList : List NVal → String
  | [] => ""
  | [x] => jsonMarshal x
  | x :: y :: rest => jsonMarshal x ++ "," ++ marshalList (y :: rest)
termination_by xs => (sizeOf xs, 0)

def marshalFields (m : List (String × NVal)) : List String → String
  | [] => ""
  | [k] =>
    "\"" ++ jsonEscape k ++ "\":"
      ++ (match h : lookupA m k with
          | some v =>
            have hlt : sizeOf v < sizeOf m := lookupA_sizeOf m k v h
            jsonMarshal v
          | none => "null")
  | k :: k2 :: ks =>
    ("\"" ++ jsonEscape k ++ "\":"
      ++ (match h : lookupA m k with
          | some v =>
            have hlt : sizeOf v < sizeOf m := lookupA_sizeOf m k v h
            jsonMarshal v
          | none => "null"))
      ++ "," ++ marshalFields m (k2 :: ks)
termination_by ks => (sizeOf m, ks.length)

end

/-! ### Schema-aware XML decoding (get.go `netconfXMLtoMap`)

The Go decoder keeps a stack of `eldesc` records, each holding a pointer to
its parent and a `children` map.  `linkNodeToParent` stores the child's map
(or appends it to a slice) in the PARENT's map at the child's START element,
i.e. it stores a reference that Go later mutates through the child.  In this
pure model every frame owns its map; the start-element link stores the
child's then-current (empty) map, and popping the frame at its end element
writes the final map back over that placeholder.  Between a child's start
and end tokens nothing writes to the parent's map (all writes target the
innermost frame or its direct parent), so the write-back realises exactly
the mutations Go applied through the stored reference; an end of stream with
unclosed elements is handled by folding the same write-backs over the
remaining stack (`finalizeStack`), again matching what the aliased maps
contain at that point. -/

/-- One `eldesc`: the schema entry for the element (`none` when the schema
does not include it) and the element's `children` map. -/
structure Frame where
  schema : Option SchemaEntry
  children : List (String × NVal)

/-- Decoder state: the eldesc stack (innermost first; the bottom frame is the
root descriptor) and the `top` map returned by `netconfXMLtoMap` (kept in
sync when the root descriptor itself is popped). -/
structure DecSt where
  stack : List Frame
  top : List (String × NVal)

/-- Embeds `linkNodeToParent` (get.go), acting on the parent frame: create
the slice for a list/leaf-list if absent, append the (empty, later
written-back) child map for a list, store the child map for a container,
nothing for a leaf.  The `.([]interface{})` type assertion on a non-slice
value is a panic (`none`). -/
def linkNodeToParent (nschema : SchemaEntry) (par : Frame) : Option Frame :=
  let tag := nschema.name
  if nschema.isList || nschema.isLeafList then
    let m := match lookupA par.children tag with
             | none => updA par.children tag (NVal.vArr [])
             | some _ => par.children
    if nschema.isList then
      match lookupA m tag with
      | some (NVal.vArr xs) =>
        some { par with children := updA m tag (NVal.vArr (xs ++ [NVal.vMap []])) }
      | _ => none
    else some { par with children := m }
  else if nschema.isContainer then
    some { par with children := updA par.children tag (NVal.vMap []) }
  else some par

/-- Embeds `addLeafValueToParent` (get.go): coerce the character data through
`getLeafValue` (a panic there propagates) and store it in the parent's map -
overwriting for a leaf, appending to the asserted slice for a leaf-list. -/
def addLeafValueToParent (o : RegexOracle) (input : String) (leafSchema : SchemaEntry)
    (par : Frame) : Option Frame :=
  match getLeafValue o input leafSchema with
  | none => none
  | some value =>
    let tag := leafSchema.name
    if leafSchema.isLeaf then
      some { par with children := updA par.children tag value }
    else
      match lookupA par.children tag with
      | some (NVal.vArr xs) =>
        some { par with children := updA par.children tag (NVal.vArr (xs ++ [value])) }
      | _ => none

/-- Write-back realising the alias stored by `linkNodeToParent`: when a
known list/container frame is popped, its final map replaces the
placeholder stored at its start element (for a list: the last slice entry). -/
def writeBack (cur par : Frame) : Frame :=
  match cur.schema with
  | none => par
  | some e =>
    if e.isList then
      match lookupA par.children e.name with
      | some (NVal.vArr xs) =>
        { par with children := updA par.children e.name (NVal.vArr (xs.dropLast ++ [NVal.vMap cur.children])) }
      | _ => par
    else if e.isContainer then
      { par with children := updA par.children e.name (NVal.vMap cur.children) }
    else par

/-- One iteration of the token loop of `netconfXMLtoMap`.  An empty stack
models a nil `cureld` (Go would dereference it: panic); Go's `xml.Decoder`
never delivers tokens past an unmatched end element, so that state is
unreachable on streams the decoder can produce. -/
def decodeStep (o : RegexOracle) (st : DecSt) : XmlTok → Option DecSt
  | XmlTok.start name _ =>
    match st.stack with
    | [] => none
    | cur :: rest =>
      let nschema := match cur.schema with
                     | some sc => getChildSchema name sc
                     | none => none
      match nschema with
      | none => some { st with stack := Frame.mk none [] :: cur :: rest }
      | some ns =>
        match linkNodeToParent ns cur with
        | none => none
        | some cur2 => some { st with stack := Frame.mk (some ns) [] :: cur2 :: rest }
  | XmlTok.endEl _ =>
    match st.stack with
    | [] => none
    | [cur] => some { st with stack := [], top := cur.children }
    | cur :: par :: rest => some { st with stack := writeBack cur par :: rest }
  | XmlTok.chardata s =>
    match st.stack with
    | [] => none
    | cur :: rest =>
      match cur.schema with
      | some e =>
        if e.isLeaf || e.isLeafList then
          match rest with
          | [] => none
          | par :: rest2 =>
            match addLeafValueToParent o s e par with
            | none => none
            | some par2 => some { st with stack := cur :: par2 :: rest2 }
        else some st
      | none => some st
  | XmlTok.comment _ => some st
  | XmlTok.procInst _ => some st
  | XmlTok.directive _ => some st

def runToks (o : RegexOracle) : DecSt → List XmlTok → Option DecSt
  | st, [] => some st
  | st, tk :: rest =>
    match decodeStep o st tk with
    | none => none
    | some st2 => runToks o st2 rest

/-- Folding the pending write-backs of the still-open frames down to the
root descriptor, whose map is returned. -/
def finalizeFold : Frame → List Frame → List (String × NVal)
  | f, [] => f.children
  | cur, par :: rest => finalizeFold (writeBack cur par) rest

/-- End-of-stream: fold the pending write-backs down to the root descriptor
and return its map (or the saved `top` if the root was popped). -/
def finalizeStack : List Frame → List (String × NVal) → List (String × NVal)
  | [], top => top
  | f :: rest, _ => finalizeFold f rest

/-- Embeds `netconfXMLtoMap` (get.go) over the decoder's token stream: start
from a root descriptor carrying the schema root and an empty map, run the
token loop, return the root map (`none` is a run-time panic). -/
def initDecSt (a : Adapter) : DecSt :=
  { stack := [Frame.mk (some a.model.schemaTreeRoot) []], top := [] }

def netconfXMLtoMap (a : Adapter) (o : RegexOracle) (result : List XmlTok) :
    Option (List (String × NVal)) :=
  match runToks o (initDecSt a) result with
  | none => none
  | some st => some (finalizeStack st.stack st.top)

/-! ### Node extraction (get.go `getRequestedNode`) -/

/-- Embeds the loop of `getRequestedNode`: descend by step name; a slice node
contributes its first entry asserted to be a map (empty slice: index panic;
non-map head: type-assertion panic; both `none`); a scalar leaves the `nextmap`
nil so the lookup misses; a nil value (missing key or stored nil) is
`NotFound`.  At the terminus a slice is again replaced by its asserted first
entry. -/
def getRequestedNodeLoop : NVal → List PathElem → Option (Except GErr NVal)
  | input, [] =>
    match input with
    | NVal.vArr [] => none
    | NVal.vArr (NVal.vMap m :: _) => some (Except.ok (NVal.vMap m))
    | NVal.vArr (_ :: _) => none
    | v => some (Except.ok v)
  | input, el :: rest =>
    let nextmap : Option (Option (List (String × NVal))) :=
      match input with
      | NVal.vMap m => some (some m)
      | NVal.vArr [] => none
      | NVal.vArr (NVal.vMap m :: _) => some (some m)
      | NVal.vArr (_ :: _) => none
      | _ => some none
    match nextmap with
    | none => none
    | some nm =>
      match (match nm with
             | none => none
             | some m => lookupA m el.name) with
      | none => some (Except.error ⟨GCode.notFound, "failed to find path"⟩)
      | some NVal.vNil => some (Except.error ⟨GCode.notFound, "failed to find path"⟩)
      | some v => getRequestedNodeLoop v rest

def getRequestedNode (input : NVal) (path : Path) : Option (Except GErr NVal) :=
  getRequestedNodeLoop input path.elem

/-! ### Notification building and the Get RPC (get.go) -/

/-- Models `value.FromScalar` applied to a stored intermediate value:
scalars wrap into the corresponding `TypedValue`, everything else (nil,
maps, slices) is an error. -/
def fromScalar : NVal → Except String TypedValue
  | NVal.vStr s => Except.ok (TypedValue.stringVal s)
  | NVal.vUint n => Except.ok (TypedValue.uintVal n)
  | NVal.vInt n => Except.ok (TypedValue.intVal n)
  | _ => Except.error "non-scalar type"

/-- The JSON-bytes variant of an outbound `TypedValue`
(`TypedValue_JsonVal{JsonVal: jsonDump}`). -/
def jsonBytesVal (s : String) : TypedValue := TypedValue.jsonBytes s

/-- Embeds `notification` (get.go): current timestamp, the request's prefix,
a single update. -/
def notification (pfx : Option Path) (now : Int) (upd : Update) : Notification :=
  { timestamp := now, pfx := pfx, update := [upd] }

/-- Embeds `buildGnmiNotification` (get.go): a leaf wraps the extracted
scalar (code `Internal` when it is not scalar); a directory re-encodes the
extracted node as JSON bytes; any other entry kind (a leaf-list) hits the
function's `panic` (`none`).  The model's `json.Marshal` is total, so the
marshalling `Internal` branch cannot fire here. -/
def buildGnmiNotification (entry : SchemaEntry) (requestedValue : NVal)
    (path : Path) (pfx : Option Path) (now : Int) : Option (Except GErr Notification) :=
  if entry.isLeaf then
    match fromScalar requestedValue with
    | Except.error _ =>
      some (Except.error ⟨GCode.internal, "leaf node does not contain a scalar type value"⟩)
    | Except.ok tv => some (Except.ok (notification pfx now ⟨path, tv⟩))
  else if entry.isDir then
    some (Except.ok (notification pfx now ⟨path, jsonBytesVal (jsonMarshal requestedValue)⟩))
  else none

/-- Embeds `executeGetConfig` (get.go): one `GetConfigSubtree` call; a device
error surfaces as code `Unknown`. -/
def executeGetConfig (dev : Device) (filter : Option String) : Except GErr (List XmlTok) :=
  match dev.getResp filter with
  | Except.error _ => Except.error ⟨GCode.unknown, "failed to get config"⟩
  | Except.ok result => Except.ok result

/-- Embeds `netconfValueToGnmi` (get.go): decode the XML, extract the
requested node, build the notification. -/
def netconfValueToGnmi (a : Adapter) (o : RegexOracle) (entry : SchemaEntry)
    (result : List XmlTok) (path : Path) (pfx : Option Path) (now : Int) :
    Option (Except GErr Notification) :=
  match netconfXMLtoMap a o result with
  | none => none
  | some m =>
    match getRequestedNode (NVal.vMap m) path with
    | none => none
    | some (Except.error e) => some (Except.error e)
    | some (Except.ok v) => buildGnmiNotification entry v path pfx now

/-- Embeds `processPath` (get.go): resolve the full path (prefix prepended
when present), check it against the schema (`NotFound` before any device
call), issue the get-config and convert the response.  The second component
lists the device calls made. -/
def processPath (a : Adapter) (o : RegexOracle) (dev : Device) (now : Int)
    (pfx : Option Path) (path : Path) :
    Option (Except GErr Notification × List DevCall) :=
  let fullPath := match pfx with
                  | some p => gnmiFullPath p path
                  | none => path
  match getSchemaEntryForPath a.model.schemaTreeRoot fullPath with
  | none => some (Except.error ⟨GCode.notFound, "path not found (Test)"⟩, [])
  | some entry =>
    let filter := pathToNetconfSubtree fullPath
    match executeGetConfig dev filter with
    | Except.error e => some (Except.error e, [DevCall.getCfg filter])
    | Except.ok result =>
      match netconfValueToGnmi a o entry result fullPath pfx now with
      | none => none
      | some r => some (r, [DevCall.getCfg filter])

/-- The adapter's supported encodings (`supportedEncodings` in adapter.go). -/
def supportedEncodings : List Encoding := [Encoding.json]

/-- Embeds `checkEncodingAndModel` (util.go): the encoding must be one of the
supported encodings, and every requested model must be `DeepEqual` to some
model of the adapter's model list. -/
def checkEncodingAndModel (a : Adapter) (encoding : Encoding)
    (models : List ModelData) : Option String :=
  if supportedEncodings.contains encoding then
    match models.find? (fun m => !(a.model.modelData.contains m)) with
    | some _ => some "unsupported model"
    | none => none
  else some "unsupported encoding"

/-- Per-path loop of `Get`: abort on the first error, otherwise one
notification per path. -/
def processPaths (a : Adapter) (o : RegexOracle) (dev : Device) (now : Int)
    (pfx : Option Path) : List Path → Option (Except GErr (List Notification) × List DevCall)
  | [] => some (Except.ok [], [])
  | p :: ps =>
    match processPath a o dev now pfx p with
    | none => none
    | some (Except.error e, tr) => some (Except.error e, tr)
    | some (Except.ok n, tr) =>
      match processPaths a o dev now pfx ps with
      | none => none
      | some (Except.error e, tr2) => some (Except.error e, tr ++ tr2)
      | some (Except.ok ns, tr2) => some (Except.ok (n :: ns), tr ++ tr2)

/-- Embeds `Get` (get.go): check encoding and models (`Unimplemented` on
failure, before any device interaction), default an empty path list to the
single empty path, then process each path. -/
def GetRpc (a : Adapter) (o : RegexOracle) (dev : Device) (now : Int)
    (req : GetRequest) : Option (Except GErr (List Notification) × List DevCall) :=
  match checkEncodingAndModel a req.encoding req.useModels with
  | some msg => some (Except.error ⟨GCode.unimplemented, msg⟩, [])
  | none =>
    let paths := if req.path = [] then [Path.mk "" []] else req.path
    processPaths a o dev now req.pfx paths

/-! ### Specification-side predicates used by the theorems -/

/-- Well-matched XML token streams, as `xml.Decoder` (in its default strict
mode) delivers them: every start element is closed by a matching end
element. -/
inductive Balanced : List XmlTok → Prop
  | nil : Balanced []
  | elem (n : String) (attrs : List (String × String)) (inner rest : List XmlTok) :
      Balanced inner → Balanced rest →
      Balanced (XmlTok.start n attrs :: (inner ++ XmlTok.endEl n :: rest))
  | cdata (s : String) (rest : List XmlTok) :
      Balanced rest → Balanced (XmlTok.chardata s :: rest)
  | comm (s : String) (rest : List XmlTok) :
      Balanced rest → Balanced (XmlTok.comment s :: rest)
  | proc (s : String) (rest : List XmlTok) :
      Balanced rest → Balanced (XmlTok.procInst s :: rest)
  | dirv (s : String) (rest : List XmlTok) :
      Balanced rest → Balanced (XmlTok.directive s :: rest)

/-- The decoder state after some prefix of tokens has a current element whose
schema does not contain `name` as a child (either because the element is not
in the schema itself, or because the lookup misses). -/
def topUnknown (st : DecSt) (name : String) : Prop :=
  match st.stack with
  | [] => False
  | cur :: _ =>
    (match cur.schema with
     | some sc => getChildSchema name sc
     | none => none) = (none : Option SchemaEntry)

/-- Intermediate-tree values in which every slice is non-empty, starts with a
map, and contains only such values - the shape `getRequestedNode` silently
assumes. -/
inductive GoodSeq : NVal → Prop
  | str (s : String) : GoodSeq (NVal.vStr s)
  | uint (n : Nat) : GoodSeq (NVal.vUint n)
  | int (n : Int) : GoodSeq (NVal.vInt n)
  | nil : GoodSeq NVal.vNil
  | map (m : List (String × NVal)) :
      (∀ k v, (k, v) ∈ m → GoodSeq v) → GoodSeq (NVal.vMap m)
  | arr (m : List (String × NVal)) (xs : List NVal) :
      (∀ v ∈ NVal.vMap m :: xs, GoodSeq v) →
      GoodSeq (NVal.vArr (NVal.vMap m :: xs))

/-- Token predicate: a start element carrying an `operation` attribute. -/
def hasOpAttr : XmlTok → Bool
  | XmlTok.start _ attrs => attrs.any (fun kv => kv.1 == "operation")
  | _ => false

/-- Token predicate: any start element carrying any attribute at all. -/
def isAttrStart : XmlTok → Bool
  | XmlTok.start _ attrs => !attrs.isEmpty
  | _ => false

/-! ### Concrete fixtures (a small schema shaped like the test schema) -/

def tString : YangType := YangType.mk YKind.ystring [] [] []

def tUint32 : YangType := YangType.mk YKind.yuint32 [] [] []

def leafE (n : String) (t : YangType) : SchemaEntry := SchemaEntry.mk n none false (some t)

def contE (n : String) (children : List (String × SchemaEntry)) : SchemaEntry :=
  SchemaEntry.mk n (some children) false none

def listE (n : String) (children : List (String × SchemaEntry)) : SchemaEntry :=
  SchemaEntry.mk n (some children) true none

def leafListE (n : String) (t : YangType) : SchemaEntry := SchemaEntry.mk n none true (some t)

def otnE : SchemaEntry := contE "otn-options" [("rate", leafE "rate" tString)]

def interfaceE : SchemaEntry :=
  listE "interface" [("name", leafE "name" tString), ("otn-options", otnE)]

def sshE : SchemaEntry :=
  contE "ssh" [("max-sessions-per-connection", leafE "max-sessions-per-connection" tUint32)]

def confE : SchemaEntry :=
  contE "configuration"
    [("system", contE "system" [("services", contE "services" [("ssh", sshE)])]),
     ("version", leafE "version" tString),
     ("interfaces", contE "interfaces" [("interface", interfaceE)])]

def rootE : SchemaEntry := contE "Device" [("configuration", confE)]

def modelC : Model := ⟨[⟨"junos-conf-interfaces", "Juniper", "2019-01-01"⟩], rootE⟩

def adapterC : Adapter := ⟨modelC⟩

/-- A schema root holding a single uint32 leaf-list, for the extraction
counterexample. -/
def rootLL : SchemaEntry := contE "Device" [("ll", leafListE "ll" tUint32)]

def adapterLL : Adapter := ⟨⟨[], rootLL⟩⟩

/-- Regex oracle on which nothing compiles (the fixtures avoid unions). -/
def oracleNone : RegexOracle := ⟨fun _ => none⟩

/-- The compiled form of the anchored pattern `^(abc)$`: a regex matching
exactly the string `abc`. -/
def rxAbc : Regexp := ⟨fun v => v == "abc"⟩

/-- Regex oracle for the pattern-matching claims: the anchored pattern
`^(abc)$` compiles (into `rxAbc`); every other pattern fails to compile. -/
def oracleAbc : RegexOracle :=
  ⟨fun s => if s = "^(abc)$" then some rxAbc else none⟩

/-- Device oracle whose get-config always returns success with the given
token stream and whose edit-config always succeeds. -/
def devOk (result : List XmlTok) : Device := ⟨fun _ => Except.ok result, fun _ => none⟩

/-- Device oracle that fails every edit-config with the given message. -/
def devEditFail (msg : String) : Device := ⟨fun _ => Except.ok [], fun _ => some msg⟩

def pfxC : Path := ⟨"", [⟨"configuration", []⟩]⟩

def emptyPathC : Path := ⟨"", []⟩

def versionTailC : Path := ⟨"", [⟨"version", []⟩]⟩

def pathVersionC : Path := ⟨"", [⟨"configuration", []⟩, ⟨"version", []⟩]⟩

/-- The same two-key list step under two different Go map iteration orders. -/
def pKeysAB : Path := ⟨"", [⟨"interface", [("a", "1"), ("b", "2")]⟩]⟩

def pKeysBA : Path := ⟨"", [⟨"interface", [("b", "2"), ("a", "1")]⟩]⟩

def u32LeafC : SchemaEntry := leafE "m" tUint32

/-- A union type with a single string alternative carrying the XSD pattern
`abc`. -/
def unionStrAbc : YangType := YangType.mk YKind.ystring ["abc"] [] []

def jsonA1 : TypedValue := TypedValue.jsonVal (Json.obj [("a", Json.num 1)])

/-- A path whose second step is not in the schema. -/
def pathBadC : Path := ⟨"", [⟨"configuration", []⟩, ⟨"nope", []⟩]⟩

/-- Device response tokens holding one uint32 leaf-list entry. -/
def llTokens : List XmlTok := [XmlTok.start "ll" [], XmlTok.chardata "5", XmlTok.endEl "ll"]

def llPath : Path := ⟨"", [⟨"ll", []⟩]⟩

/-- A Set request with one delete, one replace and one update, all on the
`configuration/version` leaf. -/
def reqSetC : SetRequest :=
  ⟨none, [pathVersionC], [(pathVersionC, some (TypedValue.stringVal "ABC"))],
    [(pathVersionC, some (TypedValue.stringVal "XYZ"))]⟩

/-- The edit-config payload each element of `reqSetC` translates to. -/
def payloadC (e : SetElem) : Option String :=
  match e.op with
  | UpdateOp.del =>
    some "<configuration><version operation=\"delete\"></version></configuration>"
  | UpdateOp.replace =>
    some "<configuration><version operation=\"replace\">ABC</version></configuration>"
  | UpdateOp.update =>
    some "<configuration><version operation=\"merge\">XYZ</version></configuration>"

/-- Prefix of the schema-filtering witness stream: an opened `configuration`
holding a decoded `version` leaf. -/
def preC8 : List XmlTok :=
  [XmlTok.start "configuration" [], XmlTok.start "version" [],
    XmlTok.chardata "ABC", XmlTok.endEl "version"]

def postC8 : List XmlTok := [XmlTok.endEl "configuration"]

/-- The decoder state after `preC8`. -/
def stC8 : DecSt :=
  ⟨[Frame.mk (some confE) [("version", NVal.vStr "ABC")],
    Frame.mk (some rootE) [("configuration", NVal.vMap [])]], []⟩

/-! ### Shared helper lemmas -/

/-- The built notification depends on the request prefix only through its
`pfx` field. -/
theorem buildGnmiNotification_pfx (entry : SchemaEntry) (v : NVal) (path : Path)
    (pfxO : Option Path) (now : Int) :
    buildGnmiNotification entry v path pfxO now
      = (buildGnmiNotification entry v path none now).map
          (Except.map (fun n => { n with pfx := pfxO })) := by
  unfold buildGnmiNotification
  by_cases h1 : entry.isLeaf
  · simp only [h1, if_true]
    cases fromScalar v with
    | error e => rfl
    | ok tv => rfl
  · simp only [h1, if_false]
    by_cases h2 : entry.isDir
    · simp only [h2, if_true]
      rfl
    · simp only [h2, if_false]
      rfl

/-- The response conversion depends on the request prefix only through the
notification's `pfx` field. -/
theorem netconfValueToGnmi_pfx (a : Adapter) (o : RegexOracle) (entry : SchemaEntry)
    (result : List XmlTok) (path : Path) (pfxO : Option Path) (now : Int) :
    netconfValueToGnmi a o entry result path pfxO now
      = (netconfValueToGnmi a o entry result path none now).map
          (Except.map (fun n => { n with pfx := pfxO })) := by
  unfold netconfValueToGnmi
  cases netconfXMLtoMap a o result with
  | none => rfl
  | some m =>
    dsimp only
    cases getRequestedNode (NVal.vMap m) path with
    | none => rfl
    | some r =>
      cases r with
      | error e => rfl
      | ok v => exact buildGnmiNotification_pfx entry v path pfxO now

/-! ### C1 - effective path composition -/

/-- C1, as stated, is false: for a path with no elements `gnmiFullPath` drops
the prefix entirely - the effective path is empty, the subtree filter is the
nil whole-tree filter, and schema lookup resolves the root (not the prefix's
entry). -/
theorem c1_counterexample :
    (gnmiFullPath pfxC emptyPathC).elem ≠ pfxC.elem ++ emptyPathC.elem ∧
    pathToNetconfSubtree (gnmiFullPath pfxC emptyPathC) = none ∧
    getSchemaEntryForPath rootE (gnmiFullPath pfxC emptyPathC) = some rootE :=
  ⟨by decide, by decide, rfl⟩

/-- C1 (amended): when the path has at least one element the effective path
used for schema lookup, the generated NETCONF XML and node extraction is
`prefix.elems ++ path.elems` - a prefixed Set translates exactly like the
concatenated path, and a prefixed Get differs from the concatenated Get only
in the notification's prefix field.  When the path has no elements the
prefix is dropped and the effective path is empty. -/
theorem c1_amended :
    (∀ (pfx path : Path), path.elem ≠ [] →
        (gnmiFullPath pfx path).elem = pfx.elem ++ path.elem) ∧
    (∀ (pfx path : Path), path.elem = [] → (gnmiFullPath pfx path).elem = []) ∧
    (∀ (a : Adapter) (op : UpdateOp) (pfx path : Path) (inval : Option TypedValue),
        path.elem ≠ [] →
        gnmiToNetconfOperation a op (some pfx) path inval
          = gnmiToNetconfOperation a op none ⟨path.origin, pfx.elem ++ path.elem⟩ inval) ∧
    (∀ (a : Adapter) (o : RegexOracle) (dev : Device) (now : Int) (pfx path : Path),
        path.elem ≠ [] →
        processPath a o dev now (some pfx) path
          = (processPath a o dev now none ⟨path.origin, pfx.elem ++ path.elem⟩).map
              (fun r => (r.1.map (fun n => { n with pfx := some pfx }), r.2))) := by
  have hfull : ∀ (pfx path : Path), path.elem ≠ [] →
      gnmiFullPath pfx path = ⟨path.origin, pfx.elem ++ path.elem⟩ := by
    intro pfx path h
    simp [gnmiFullPath, h]
  refine ⟨?_, ?_, ?_, ?_⟩
  · intro pfx path h
    rw [hfull pfx path h]
  · intro pfx path h
    simp [gnmiFullPath, h]
  · intro a op pfx path inval h
    show gnmiToNetconfOperation a op (some pfx) path inval = _
    unfold gnmiToNetconfOperation
    simp only [hfull pfx path h]
  · intro a o dev now pfx path h
    unfold processPath
    simp only [hfull pfx path h]
    cases getSchemaEntryForPath a.model.schemaTreeRoot ⟨path.origin, pfx.elem ++ path.elem⟩ with
    | none => rfl
    | some entry =>
      simp only
      cases executeGetConfig dev (pathToNetconfSubtree ⟨path.origin, pfx.elem ++ path.elem⟩) with
      | error e => rfl
      | ok result =>
        simp only
        rw [netconfValueToGnmi_pfx a o entry result ⟨path.origin, pfx.elem ++ path.elem⟩ (some pfx) now]
        cases netconfValueToGnmi a o entry result ⟨path.origin, pfx.elem ++ path.elem⟩ none now with
        | none => rfl
        | some r => rfl

theorem c1_amended_witness :
    gnmiToNetconfOperation adapterC UpdateOp.del (some pfxC) versionTailC none
      = gnmiToNetconfOperation adapterC UpdateOp.del none
          ⟨"", pfxC.elem ++ versionTailC.elem⟩ none :=
  c1_amended.2.2.1 adapterC UpdateOp.del pfxC versionTailC none (by decide)

/-! ### C3 - key ordering in generated XML -/

/-- C3, as stated, is false: the same list step presented in two Go map
iteration orders (the key sets are permutations of each other) yields two
different subtree-filter strings, and neither emitter sorts - the unsorted
presentation does not match the sorted form. -/
theorem c3_counterexample :
    pKeysBA.elem = [⟨"interface", [("b", "2"), ("a", "1")]⟩] ∧
    pKeysAB.elem = [⟨"interface", [("a", "1"), ("b", "2")]⟩] ∧
    List.Perm [(("b" : String), ("2" : String)), ("a", "1")] [("a", "1"), ("b", "2")] ∧
    pathToNetconfSubtree pKeysBA ≠ pathToNetconfSubtree pKeysAB ∧
    pathToNetconfSubtree pKeysBA ≠ pathToNetconfSubtreeSortedSpec pKeysBA ∧
    serializeToks (mapPathToNetconf pKeysBA.elem UpdateOp.del)
      ≠ serializeToks (mapPathToNetconfSortedSpec pKeysBA.elem UpdateOp.del) := by
  refine ⟨by decide, by decide, by decide, by decide, by decide, by decide⟩

/-- Mapping a list with two functions that agree on its members. -/
theorem flatMap_congr_mem {α β : Type} (l : List α) (f g : α → List β)
    (h : ∀ e ∈ l, f e = g e) : l.flatMap f = l.flatMap g := by
  induction l with
  | nil => rfl
  | cons x xs ih =>
    simp only [List.flatMap_cons]
    rw [h x (by simp), ih (fun e he => h e (by simp [he]))]

/-- C3 (amended): the key children of a step are emitted in the order in
which Go's map iteration presents them; the generated XML agrees with the
sorted form exactly when every step's keys are presented already sorted by
key name (Go randomises map iteration, so two encodings of the same path
need not coincide). -/
theorem c3_amended :
    (∀ path : Path, (∀ e ∈ path.elem, List.Sorted keyLE e.key) →
        pathToNetconfSubtree path = pathToNetconfSubtreeSortedSpec path) ∧
    (∀ (elems : List PathElem) (op : UpdateOp),
        (∀ e ∈ elems, List.Sorted keyLE e.key) →
        mapPathToNetconf elems op = mapPathToNetconfSortedSpec elems op) := by
  constructor
  · intro path h
    unfold pathToNetconfSubtree pathToNetconfSubtreeSortedSpec
    by_cases he : path.elem = []
    · simp [he]
    · simp only [he, if_false]
      rw [flatMap_congr_mem path.elem
        (fun e => XmlTok.start e.name [] :: keyToks e.key)
        (fun e => XmlTok.start e.name [] :: keyToks (e.key.insertionSort keyLE))
        (fun e he => by simp only [(h e he).insertionSort_eq])]
  · intro elems op h
    induction elems with
    | nil => rfl
    | cons e rest ih =>
      cases rest with
      | nil =>
        have hs : List.Sorted keyLE e.key := h e (by simp)
        simp [mapPathToNetconf, mapPathToNetconfSortedSpec, hs.insertionSort_eq]
      | cons e2 r2 =>
        have hs : List.Sorted keyLE e.key := h e (by simp)
        have ih2 := ih (fun x hx => h x (by simp [hx]))
        simp [mapPathToNetconf, mapPathToNetconfSortedSpec, hs.insertionSort_eq, ih2]

theorem c3_amended_witness :
    pathToNetconfSubtree pKeysAB = pathToNetconfSubtreeSortedSpec pKeysAB :=
  c3_amended.1 pKeysAB (by
    intro e he
    simp [pKeysAB] at he
    subst he
    simp [List.Sorted]
    decide)

/-! ### C9 - uint32 leaf coercion -/

/-- When `ParseUint`'s loop reports a syntax error its value is 0. -/
theorem parseUintLoop_synErr :
    ∀ (cs : List Char) (n : Nat),
      (parseUintLoop n cs).2 = some NumErr.synErr → (parseUintLoop n cs).1 = 0 := by
  intro cs
  induction cs with
  | nil => intro n h; simp [parseUintLoop] at h
  | cons c rest ih =>
    intro n h
    rw [parseUintLoop] at h ⊢
    cases hd : digitVal c with
    | none => simp [hd]
    | some d =>
      simp only [hd] at h ⊢
      by_cases h1 : n ≥ u64cutoff
      · simp [h1] at h
      · simp only [h1, if_false] at h ⊢
        by_cases h2 : n * 10 + d > u64max
        · simp [h2] at h
        · simp only [h2, if_false] at h ⊢
          exact ih (n * 10 + d) h

/-- When `ParseUint`'s loop reports a range error its value is `maxUint64`. -/
theorem parseUintLoop_rangeErr :
    ∀ (cs : List Char) (n : Nat),
      (parseUintLoop n cs).2 = some NumErr.rangeErr → (parseUintLoop n cs).1 = u64max := by
  intro cs
  induction cs with
  | nil => intro n h; simp [parseUintLoop] at h
  | cons c rest ih =>
    intro n h
    rw [parseUintLoop] at h ⊢
    cases hd : digitVal c with
    | none => simp [hd] at h
    | some d =>
      simp only [hd] at h ⊢
      by_cases h1 : n ≥ u64cutoff
      · simp [h1]
      · simp only [h1, if_false] at h ⊢
        by_cases h2 : n * 10 + d > u64max
        · simp [h2]
        · simp only [h2, if_false] at h ⊢
          exact ih (n * 10 + d) h

/-- C9, as stated, is false: an out-of-range unsigned decimal is a parse
failure, yet the stored value is `maxUint64`, not zero. -/
theorem c9_counterexample :
    getLeafValue oracleNone "18446744073709551616" u32LeafC
        = some (NVal.vUint 18446744073709551615) ∧
    (parseUint64 "18446744073709551616").2 = some NumErr.rangeErr ∧
    (18446744073709551615 : Nat) ≠ 0 :=
  ⟨rfl, by decide, by decide⟩

/-- C9 (amended): the character data of a uint32 leaf is parsed by
`ParseUint(.., 10, 64)` after trimming and the resulting value is stored
with the error discarded (the Get never fails because of it): on a syntax
error the stored value is zero, on a range error it is `maxUint64`. -/
theorem c9_amended (o : RegexOracle) (cd : String) (e : SchemaEntry) (t : YangType)
    (h1 : e.typ = some t) (h2 : t.kind = YKind.yuint32) :
    getLeafValue o cd e = some (NVal.vUint (parseUint64 (trimSpace cd)).1) ∧
    ((parseUint64 (trimSpace cd)).2 = some NumErr.synErr →
      (parseUint64 (trimSpace cd)).1 = 0) ∧
    ((parseUint64 (trimSpace cd)).2 = some NumErr.rangeErr →
      (parseUint64 (trimSpace cd)).1 = u64max) := by
  refine ⟨?_, ?_, ?_⟩
  · unfold getLeafValue
    rw [h1]
    dsimp only
    rw [h2]
  · intro hsyn
    unfold parseUint64 at hsyn ⊢
    by_cases hne : trimSpace cd = ""
    · simp [hne]
    · simp only [hne, if_false] at hsyn ⊢
      exact parseUintLoop_synErr (trimSpace cd).data 0 hsyn
  · intro hrange
    unfold parseUint64 at hrange ⊢
    by_cases hne : trimSpace cd = ""
    · simp [hne] at hrange
    · simp only [hne, if_false] at hrange ⊢
      exact parseUintLoop_rangeErr (trimSpace cd).data 0 hrange

theorem c9_amended_witness :
    getLeafValue oracleNone " 32 " u32LeafC
        = some (NVal.vUint (parseUint64 (trimSpace " 32 ")).1) ∧
    (parseUint64 (trimSpace " 32 ")).1 = 32 :=
  ⟨(c9_amended oracleNone " 32 " u32LeafC tUint32 rfl rfl).1, by decide⟩

/-! ### C2 - union pattern matching (code bug) -/

/-- C2 is right about the intent and the code is wrong (the comparison
`err != nil` in `patternMatches` is inverted): with an oracle under which
the anchored pattern `^(abc)$` compiles and matches `abc`, the code still
reports a non-match (so the single-alternative union misses and coercion
fails `NotFound`), and for the uncompilable pattern `(` it dereferences a
nil regexp - a crash - instead of treating it as a non-match. -/
theorem c2_code_bug :
    fixYangRegexp "abc" = "^(abc)$" ∧
    oracleAbc.compile (fixYangRegexp "abc") = some rxAbc ∧
    rxAbc.matchString "abc" = true ∧
    patternMatches oracleAbc "abc" "abc" = some false ∧
    getUnionValue oracleAbc "abc" [unionStrAbc]
      = some (Except.error ⟨GCode.notFound, "failed to set union value"⟩) ∧
    fixYangRegexp "(" = "^(()$" ∧
    oracleAbc.compile (fixYangRegexp "(") = none ∧
    patternMatches oracleAbc "abc" "(" = none :=
  ⟨by decide, rfl, by decide, rfl, rfl, by decide, rfl, rfl⟩

/-! ### C4 - operation attribute placement -/

/-- C4, as stated, is false: an UPDATE whose effective path has no elements
still produces an edit-config document (here for the JSON value
`{"a": 1}` against the schema root), and that document carries no
`operation` attribute at all. -/
theorem c4_counterexample :
    gnmiToNetconfOperation adapterC UpdateOp.update none emptyPathC (some jsonA1)
        = some (Except.ok (some "<a>1</a>")) ∧
    editDocTokens rootE emptyPathC UpdateOp.update (some jsonA1)
        = some (Except.ok [XmlTok.start "a" [], XmlTok.chardata "1", XmlTok.endEl "a"]) ∧
    List.countP hasOpAttr [XmlTok.start "a" [], XmlTok.chardata "1", XmlTok.endEl "a"] = 0 := by
  have h1 : toString (1 : Int) = "1" := rfl
  have hjson : jsonMapToXML [("a", Json.num 1)]
      = [PTok.pstart "a", PTok.pchar "1", PTok.pend "a"] := by
    simp [jsonMapToXML, emitSortedKeys, sortMapKeys, lookupA, fmtGoJson, h1]
  have htoks : editDocTokens rootE emptyPathC UpdateOp.update (some jsonA1)
      = some (Except.ok [XmlTok.start "a" [], XmlTok.chardata "1", XmlTok.endEl "a"]) := by
    simp [editDocTokens, mapSetValueToNetconf, mapValue, jsonA1, hjson, ptokToXml,
      emptyPathC, mapPathToNetconf, rootE, contE, SchemaEntry.isDir, SchemaEntry.dir]
  refine ⟨?_, htoks, by decide⟩
  rw [show gnmiToNetconfOperation adapterC UpdateOp.update none emptyPathC (some jsonA1)
      = (match editDocTokens rootE emptyPathC UpdateOp.update (some jsonA1) with
         | none => none
         | some (Except.error e) => some (Except.error e)
         | some (Except.ok toks) =>
           if (serializeToks toks).length = 0 then some (Except.ok none)
           else some (Except.ok (some (serializeToks toks)))) from rfl, htoks]
  rfl

/-- Decomposition of `mapPathToNetconf` on a non-empty path: the tokens are
the attribute-free tokens of the leading steps, then the terminal start
element carrying exactly the `operation` attribute, then the terminal
step's keys. -/
theorem mapPathToNetconf_decomp :
    ∀ (elems : List PathElem) (e : PathElem) (op : UpdateOp),
      mapPathToNetconf (elems ++ [e]) op
        = elems.flatMap (fun x => XmlTok.start x.name [] :: keyToks x.key)
            ++ XmlTok.start e.name [("operation", mapOperation op)] :: keyToks e.key := by
  intro elems
  induction elems with
  | nil => intro e op; rfl
  | cons x xs ih =>
    intro e op
    cases hxs : xs ++ [e] with
    | nil => simp at hxs
    | cons y ys =>
      calc mapPathToNetconf (x :: (xs ++ [e])) op
          = (XmlTok.start x.name [] :: keyToks x.key) ++ mapPathToNetconf (xs ++ [e]) op := by
            rw [hxs]; rfl
        _ = _ := by
            rw [ih e op]
            simp [List.flatMap_cons, List.append_assoc]

/-- Start tokens produced by `keyToks` carry no attributes. -/
theorem keyToks_no_attrs (keys : List (String × String)) (n : String)
    (attrs : List (String × String)) (h : XmlTok.start n attrs ∈ keyToks keys) :
    attrs = [] := by
  induction keys with
  | nil => simp [keyToks] at h
  | cons kv rest ih =>
    simp only [keyToks, List.flatMap_cons] at h ih
    rcases List.mem_append.mp h with h1 | h2
    · rcases List.mem_cons.mp h1 with he | h1
      · injection he with h1 h2
      · rcases List.mem_cons.mp h1 with he | h1
        · simp at he
        · have he := List.mem_singleton.mp h1
          simp at he
    · exact ih h2

/-- Start tokens produced by `jsonMapToXML` carry no attributes. -/
theorem ptok_no_attrs (ts : List PTok) (n : String) (attrs : List (String × String))
    (h : XmlTok.start n attrs ∈ ts.map ptokToXml) : attrs = [] := by
  rcases List.mem_map.mp h with ⟨t, _, ht⟩
  cases t with
  | pstart m => cases ht; rfl
  | pchar s => cases ht
  | pend m => cases ht

/-- Start tokens in a successful value body of `mapSetValueToNetconf` carry
no attributes: a directory body comes from `jsonMapToXML` (attribute-free by
construction), a leaf body is a single character-data token. -/
theorem mapSetValueToNetconf_no_attrs (schema : SchemaEntry) (inval : Option TypedValue)
    (valToks : List XmlTok)
    (h : mapSetValueToNetconf schema inval = some (Except.ok valToks)) :
    ∀ n attrs, XmlTok.start n attrs ∈ valToks → attrs = [] := by
  intro n attrs hmem
  unfold mapSetValueToNetconf at h
  cases hmv : mapValue schema inval with
  | error err =>
    rw [hmv] at h
    exact absurd h (by simp)
  | ok editValue =>
    rw [hmv] at h
    dsimp only at h
    cases hdir : schema.isDir with
    | false =>
      rw [hdir] at h
      simp only [Bool.false_eq_true, if_false] at h
      cases h
      rcases List.mem_singleton.mp hmem with he
      cases he
    | true =>
      rw [hdir] at h
      simp only [if_true] at h
      cases editValue with
      | gJson j =>
        cases j with
        | obj fields =>
          dsimp only at h
          cases h
          exact ptok_no_attrs _ n attrs hmem
        | str s => exact absurd h (by simp)
        | num m => exact absurd h (by simp)
        | bool b => exact absurd h (by simp)
        | null => exact absurd h (by simp)
        | arr xs => exact absurd h (by simp)
      | gInt m => exact absurd h (by simp)
      | gUint m => exact absurd h (by simp)
      | gStr s => exact absurd h (by simp)
      | gBool b => exact absurd h (by simp)

/-- C4 (amended): for every Set element whose effective path has at least one
step, the edit-config token stream decomposes around the terminal step's
start element, which carries exactly the attribute
`operation = merge/replace/delete` according to the operation, and no other
start token in the document carries any attribute.  (For an empty effective
path no `operation` attribute is emitted at all - see the counterexample.) -/
theorem c4_amended (entry : SchemaEntry) (fullPath : Path) (op : UpdateOp)
    (inval : Option TypedValue) (toks : List XmlTok)
    (elems : List PathElem) (e : PathElem)
    (helems : fullPath.elem = elems ++ [e])
    (htoks : editDocTokens entry fullPath op inval = some (Except.ok toks)) :
    (∃ pre post,
        toks = pre ++ XmlTok.start e.name [("operation", mapOperation op)] :: post ∧
        (∀ n attrs, XmlTok.start n attrs ∈ pre → attrs = []) ∧
        (∀ n attrs, XmlTok.start n attrs ∈ post → attrs = [])) ∧
    mapOperation UpdateOp.update = "merge" ∧
    mapOperation UpdateOp.replace = "replace" ∧
    mapOperation UpdateOp.del = "delete" := by
  refine ⟨?_, rfl, rfl, rfl⟩
  unfold editDocTokens at htoks
  rw [helems] at htoks
  have hpre_attrs : ∀ n attrs,
      XmlTok.start n attrs ∈ elems.flatMap (fun x => XmlTok.start x.name [] :: keyToks x.key) →
      attrs = [] := by
    intro n attrs hmem
    rcases List.mem_flatMap.mp hmem with ⟨x, _, hx⟩
    rcases List.mem_cons.mp hx with h1 | h2
    · injection h1 with ha1 ha2
    · exact keyToks_no_attrs x.key n attrs h2
  have hend_attrs : ∀ (l : List PathElem) (n : String) (attrs : List (String × String)),
      XmlTok.start n attrs ∈ l.reverse.map (fun x => XmlTok.endEl x.name) → attrs = [] := by
    intro l n attrs hmem
    rcases List.mem_map.mp hmem with ⟨x, _, hx⟩
    cases hx
  by_cases hop : op = UpdateOp.del
  · subst hop
    simp only [if_pos rfl] at htoks
    cases htoks
    refine ⟨elems.flatMap (fun x => XmlTok.start x.name [] :: keyToks x.key),
      keyToks e.key ++ (elems ++ [e]).reverse.map (fun x => XmlTok.endEl x.name), ?_, hpre_attrs, ?_⟩
    · rw [mapPathToNetconf_decomp elems e UpdateOp.del]
      simp [List.append_assoc]
    · intro n attrs hmem
      rcases List.mem_append.mp hmem with h1 | h2
      · exact keyToks_no_attrs e.key n attrs h1
      · exact hend_attrs _ n attrs h2
  · simp only [hop, if_false] at htoks
    cases hval : mapSetValueToNetconf entry inval with
    | none => rw [hval] at htoks; cases htoks
    | some r =>
      rw [hval] at htoks
      cases r with
      | error err => cases htoks
      | ok valToks =>
        cases htoks
        refine ⟨elems.flatMap (fun x => XmlTok.start x.name [] :: keyToks x.key),
          keyToks e.key ++ valToks ++ (elems ++ [e]).reverse.map (fun x => XmlTok.endEl x.name),
          ?_, hpre_attrs, ?_⟩
        · rw [mapPathToNetconf_decomp elems e op]
          simp [List.append_assoc]
        · intro n attrs hmem
          rcases List.mem_append.mp hmem with h12 | h3
          · rcases List.mem_append.mp h12 with h1 | h2
            · exact keyToks_no_attrs e.key n attrs h1
            · exact mapSetValueToNetconf_no_attrs entry inval valToks hval n attrs h2
          · exact hend_attrs _ n attrs h3
theorem c4_amended_witness :
    ∃ pre post,
      [XmlTok.start "configuration" [],
        XmlTok.start "version" [("operation", mapOperation UpdateOp.del)],
        XmlTok.endEl "version", XmlTok.endEl "configuration"]
        = pre ++ XmlTok.start "version" [("operation", mapOperation UpdateOp.del)] :: post ∧
      (∀ n attrs, XmlTok.start n attrs ∈ pre → attrs = []) ∧
      (∀ n attrs, XmlTok.start n attrs ∈ post → attrs = []) :=
  (c4_amended (leafE "version" tString) pathVersionC UpdateOp.del none
    [XmlTok.start "configuration" [],
      XmlTok.start "version" [("operation", mapOperation UpdateOp.del)],
      XmlTok.endEl "version", XmlTok.endEl "configuration"]
    [⟨"configuration", []⟩] ⟨"version", []⟩ rfl rfl).1

/-! ### C6 - schema lookup failure before device I/O -/

/-- C6: when the effective path of a Get or Set element fails schema lookup
(some step is not a child of the preceding entry, so `getSchemaEntryForPath`
is nil), the operation fails `NotFound` and the device call list is empty -
neither `GetConfigSubtree` nor `EditConfigCfg` is reached. -/
theorem c6_schema_lookup_failure
    (a : Adapter) (o : RegexOracle) (dev : Device) (now : Int)
    (op : UpdateOp) (pfx : Option Path) (path : Path) (inval : Option TypedValue)
    (h : getSchemaEntryForPath a.model.schemaTreeRoot
          (match pfx with
           | some p => gnmiFullPath p path
           | none => path) = none) :
    processPath a o dev now pfx path
      = some (Except.error ⟨GCode.notFound, "path not found (Test)"⟩, []) ∧
    executeOperation a dev op pfx path inval
      = some (Except.error ⟨GCode.notFound, "path not found (Test)"⟩, []) := by
  constructor
  · simp [processPath, h]
  · simp [executeOperation, gnmiToNetconfOperation, h]

theorem c6_witness :
    processPath adapterC oracleNone (devOk []) 0 none pathBadC
      = some (Except.error ⟨GCode.notFound, "path not found (Test)"⟩, []) ∧
    executeOperation adapterC (devOk []) UpdateOp.update none pathBadC
        (some (TypedValue.stringVal "x"))
      = some (Except.error ⟨GCode.notFound, "path not found (Test)"⟩, []) :=
  c6_schema_lookup_failure adapterC oracleNone (devOk []) 0 UpdateOp.update none pathBadC
    (some (TypedValue.stringVal "x")) rfl

/-! ### C10 - totality of node extraction -/

/-- C10, as stated, is false: the decoder turns a well-formed response
holding one uint32 leaf-list entry into a tree whose sequence value starts
with a scalar, and extracting the leaf-list's own path panics (the first
element is asserted to be a map). -/
theorem c10_counterexample :
    netconfXMLtoMap adapterLL oracleNone llTokens
        = some [("ll", NVal.vArr [NVal.vUint 5])] ∧
    getRequestedNode (NVal.vMap [("ll", NVal.vArr [NVal.vUint 5])]) llPath = none :=
  ⟨rfl, rfl⟩

/-- Membership through `lookupA`: the binding found is in the list. -/
theorem lookupA_mem {α : Type} :
    ∀ (m : List (String × α)) (key : String) (v : α),
      lookupA m key = some v → (key, v) ∈ m := by
  intro m
  induction m with
  | nil => intro key v h; simp [lookupA] at h
  | cons hd tl ih =>
    intro key v h
    rw [lookupA] at h
    by_cases hk : hd.1 = key
    · rw [if_pos hk] at h
      cases h
      have hpair : (key, hd.2) = hd := by rw [← hk]
      rw [hpair]
      exact List.mem_cons_self hd tl
    · rw [if_neg hk] at h
      exact List.mem_cons_of_mem hd (ih key v h)

/-- Totality of the extraction loop on trees whose sequences are non-empty
and map-headed. -/
theorem getRequestedNodeLoop_total :
    ∀ (elems : List PathElem) (t : NVal), GoodSeq t →
      (getRequestedNodeLoop t elems).isSome := by
  intro elems
  induction elems with
  | nil =>
    intro t h
    cases h with
    | str s => simp [getRequestedNodeLoop]
    | uint n => simp [getRequestedNodeLoop]
    | int n => simp [getRequestedNodeLoop]
    | nil => simp [getRequestedNodeLoop]
    | map m hmem => simp [getRequestedNodeLoop]
    | arr m xs hall => simp [getRequestedNodeLoop]
  | cons el rest ih =>
    intro t h
    cases h with
    | str s => simp [getRequestedNodeLoop]
    | uint n => simp [getRequestedNodeLoop]
    | int n => simp [getRequestedNodeLoop]
    | nil => simp [getRequestedNodeLoop]
    | map m hmem =>
      rw [getRequestedNodeLoop]
      cases hl : lookupA m el.name with
      | none => simp
      | some v =>
        cases v with
        | vNil => simp
        | vStr s => exact ih _ (hmem _ _ (lookupA_mem m el.name _ hl))
        | vUint n => exact ih _ (hmem _ _ (lookupA_mem m el.name _ hl))
        | vInt n => exact ih _ (hmem _ _ (lookupA_mem m el.name _ hl))
        | vMap m2 => exact ih _ (hmem _ _ (lookupA_mem m el.name _ hl))
        | vArr xs => exact ih _ (hmem _ _ (lookupA_mem m el.name _ hl))
    | arr m xs hall =>
      have hmapGood : GoodSeq (NVal.vMap m) := hall _ (by simp)
      rw [getRequestedNodeLoop]
      cases hmapGood with
      | map m hmem =>
        cases hl : lookupA m el.name with
        | none => simp
        | some v =>
          cases v with
          | vNil => simp
          | vStr s => exact ih _ (hmem _ _ (lookupA_mem m el.name _ hl))
          | vUint n => exact ih _ (hmem _ _ (lookupA_mem m el.name _ hl))
          | vInt n => exact ih _ (hmem _ _ (lookupA_mem m el.name _ hl))
          | vMap m2 => exact ih _ (hmem _ _ (lookupA_mem m el.name _ hl))
          | vArr ys => exact ih _ (hmem _ _ (lookupA_mem m el.name _ hl))

/-- C10 (amended): node extraction is total - it returns a node or fails
`NotFound` - for every intermediate tree in which each sequence is
non-empty with a map first element (true of the sequences the decoder
builds for schema lists, but not of leaf-list sequences, whose elements
are scalars, nor of an empty leaf-list - see the counterexample). -/
theorem c10_amended (t : NVal) (path : Path) (h : GoodSeq t) :
    (getRequestedNode t path).isSome :=
  getRequestedNodeLoop_total path.elem t h

theorem c10_amended_witness :
    (getRequestedNode (NVal.vMap [("a", NVal.vStr "x")]) ⟨"", [⟨"a", []⟩]⟩).isSome :=
  c10_amended (NVal.vMap [("a", NVal.vStr "x")]) ⟨"", [⟨"a", []⟩]⟩
    (GoodSeq.map _ (by
      intro k v hv
      simp at hv
      rw [hv.2]
      exact GoodSeq.str "x"))

/-! ### C5 - Set list processing order, abort on first failure -/

/-- Processing a concatenation of Set elements is processing the first part,
then - if it fully succeeded - the second. -/
theorem processElems_append (a : Adapter) (dev : Device) (pfx : Option Path) :
    ∀ (xs ys : List SetElem),
      processElems a dev pfx (xs ++ ys)
        = match processElems a dev pfx xs with
          | none => none
          | some (Except.error e, tr) => some (Except.error e, tr)
          | some (Except.ok rs, tr) =>
            match processElems a dev pfx ys with
            | none => none
            | some (Except.error e, tr2) => some (Except.error e, tr ++ tr2)
            | some (Except.ok rs2, tr2) => some (Except.ok (rs ++ rs2), tr ++ tr2) := by
  intro xs ys
  induction xs with
  | nil =>
    simp only [List.nil_append, processElems]
    cases processElems a dev pfx ys with
    | none => rfl
    | some r =>
      obtain ⟨res, tr⟩ := r
      cases res with
      | error e => simp
      | ok rs => simp
  | cons x xs ih =>
    simp only [List.cons_append, processElems, List.append_eq]
    cases executeOperation a dev x.op pfx x.path x.val with
    | none => rfl
    | some r =>
      obtain ⟨res, tr⟩ := r
      cases res with
      | error err => rfl
      | ok u =>
        rw [ih]
        cases processElems a dev pfx xs with
        | none => rfl
        | some r2 =>
          obtain ⟨res2, tr2⟩ := r2
          cases res2 with
          | error e2 => rfl
          | ok rs2 =>
            cases processElems a dev pfx ys with
            | none => rfl
            | some r3 =>
              obtain ⟨res3, tr3⟩ := r3
              cases res3 with
              | error e3 => simp
              | ok rs3 => simp [List.append_assoc]

/-- When every element of a list translates and edits successfully, the list
is processed completely: one `UpdateResult{path, op}` and one edit-config
call per element, in order. -/
theorem processElems_all_ok (a : Adapter) (dev : Device) (pfx : Option Path)
    (payloadF : SetElem → Option String) :
    ∀ (es : List SetElem),
      (∀ e ∈ es, executeOperation a dev e.op pfx e.path e.val
          = some (Except.ok ⟨e.path, e.op⟩, [DevCall.editCfg (payloadF e)])) →
      processElems a dev pfx es
        = some (Except.ok (es.map fun e => UpdateResult.mk e.path e.op),
            es.map fun e => DevCall.editCfg (payloadF e)) := by
  intro es
  induction es with
  | nil => intro _; rfl
  | cons e rest ih =>
    intro h
    rw [processElems, h e (by simp), ih (fun x hx => h x (by simp [hx]))]
    rfl

/-- The first failing element aborts processing: its error is returned, the
elements before it contribute one edit each, and nothing after it is
touched. -/
theorem processElems_abort (a : Adapter) (dev : Device) (pfx : Option Path)
    (payloadF : SetElem → Option String) :
    ∀ (es1 : List SetElem) (e : SetElem) (es2 : List SetElem) (err : GErr)
      (tr : List DevCall),
      (∀ x ∈ es1, executeOperation a dev x.op pfx x.path x.val
          = some (Except.ok ⟨x.path, x.op⟩, [DevCall.editCfg (payloadF x)])) →
      executeOperation a dev e.op pfx e.path e.val = some (Except.error err, tr) →
      processElems a dev pfx (es1 ++ e :: es2)
        = some (Except.error err,
            (es1.map fun x => DevCall.editCfg (payloadF x)) ++ tr) := by
  intro es1
  induction es1 with
  | nil =>
    intro e es2 err tr _ hfail
    simp only [List.nil_append]
    rw [processElems, hfail]
    simp
  | cons x xs ih =>
    intro e es2 err tr h hfail
    simp only [List.cons_append]
    rw [processElems, h x (by simp),
      ih e es2 err tr (fun y hy => h y (by simp [hy])) hfail]
    simp

/-- C5: a Set request is processed as the sequence delete-elements, then
replace-elements, then update-elements, each list in its declared order
(part 1); when every element succeeds, the response holds one
`UpdateResult` per element carrying that element's path and operation, and
exactly one edit-config is issued per element, in order (part 2); the first
failing element aborts processing with its error - the elements before it
have each issued their single edit and nothing after it reaches the device
(part 3). -/
theorem c5_set_processing :
    (∀ (a : Adapter) (dev : Device) (req : SetRequest),
        SetRpc a dev req
          = match processElems a dev req.pfx (setElems req) with
            | none => none
            | some (Except.error e, tr) => some (Except.error e, tr)
            | some (Except.ok rs, tr) => some (Except.ok ⟨req.pfx, rs⟩, tr)) ∧
    (∀ (a : Adapter) (dev : Device) (req : SetRequest)
        (payloadF : SetElem → Option String),
        (∀ e ∈ setElems req,
          executeOperation a dev e.op req.pfx e.path e.val
            = some (Except.ok ⟨e.path, e.op⟩, [DevCall.editCfg (payloadF e)])) →
        SetRpc a dev req
          = some (Except.ok
                ⟨req.pfx, (setElems req).map fun e => UpdateResult.mk e.path e.op⟩,
              (setElems req).map fun e => DevCall.editCfg (payloadF e))) ∧
    (∀ (a : Adapter) (dev : Device) (req : SetRequest)
        (payloadF : SetElem → Option String) (es1 : List SetElem) (e : SetElem)
        (es2 : List SetElem) (err : GErr) (tr : List DevCall),
        setElems req = es1 ++ e :: es2 →
        (∀ x ∈ es1,
          executeOperation a dev x.op req.pfx x.path x.val
            = some (Except.ok ⟨x.path, x.op⟩, [DevCall.editCfg (payloadF x)])) →
        executeOperation a dev e.op req.pfx e.path e.val = some (Except.error err, tr) →
        SetRpc a dev req
          = some (Except.error err,
              (es1.map fun x => DevCall.editCfg (payloadF x)) ++ tr)) := by
  have part1 : ∀ (a : Adapter) (dev : Device) (req : SetRequest),
      SetRpc a dev req
        = match processElems a dev req.pfx (setElems req) with
          | none => none
          | some (Except.error e, tr) => some (Except.error e, tr)
          | some (Except.ok rs, tr) => some (Except.ok ⟨req.pfx, rs⟩, tr) := by
    intro a dev req
    unfold setElems
    rw [processElems_append a dev req.pfx (setElemsDelete req)
        (setElemsReplace req ++ setElemsUpdate req),
      processElems_append a dev req.pfx (setElemsReplace req) (setElemsUpdate req)]
    unfold SetRpc
    cases processElems a dev req.pfx (setElemsDelete req) with
    | none => rfl
    | some r1 =>
      obtain ⟨res1, tr1⟩ := r1
      cases res1 with
      | error e1 => rfl
      | ok rs1 =>
        dsimp only
        cases processElems a dev req.pfx (setElemsReplace req) with
        | none => rfl
        | some r2 =>
          obtain ⟨res2, tr2⟩ := r2
          cases res2 with
          | error e2 => rfl
          | ok rs2 =>
            dsimp only
            cases processElems a dev req.pfx (setElemsUpdate req) with
            | none => rfl
            | some r3 =>
              obtain ⟨res3, tr3⟩ := r3
              cases res3 with
              | error e3 => simp
              | ok rs3 => simp [List.append_assoc]
  refine ⟨part1, ?_, ?_⟩
  · intro a dev req payloadF h
    rw [part1 a dev req, processElems_all_ok a dev req.pfx payloadF (setElems req) h]
  · intro a dev req payloadF es1 e es2 err tr hsplit h hfail
    rw [part1 a dev req, hsplit, processElems_abort a dev req.pfx payloadF es1 e es2 err tr h hfail]

theorem c5_witness :
    SetRpc adapterC (devOk []) reqSetC
      = some (Except.ok
            ⟨none, (setElems reqSetC).map fun e => UpdateResult.mk e.path e.op⟩,
          (setElems reqSetC).map fun e => DevCall.editCfg (payloadC e)) :=
  c5_set_processing.2.1 adapterC (devOk []) reqSetC payloadC (by
    intro e he
    simp [setElems, setElemsDelete, setElemsReplace, setElemsUpdate, reqSetC] at he
    rcases he with he | he | he <;> (subst he; rfl))

/-! ### C7 - Get fails Unimplemented exactly for encoding/model problems -/

/-- Errors of the extraction loop are always the `NotFound` miss. -/
theorem getRequestedNodeLoop_err :
    ∀ (elems : List PathElem) (t : NVal) (e : GErr),
      getRequestedNodeLoop t elems = some (Except.error e) →
      e = ⟨GCode.notFound, "failed to find path"⟩ := by
  intro elems
  induction elems with
  | nil =>
    intro t e h
    cases t with
    | vArr xs =>
      cases xs with
      | nil => simp [getRequestedNodeLoop] at h
      | cons x ys => cases x <;> simp [getRequestedNodeLoop] at h
    | vStr s => simp [getRequestedNodeLoop] at h
    | vUint n => simp [getRequestedNodeLoop] at h
    | vInt n => simp [getRequestedNodeLoop] at h
    | vNil => simp [getRequestedNodeLoop] at h
    | vMap m => simp [getRequestedNodeLoop] at h
  | cons el rest ih =>
    intro t e h
    cases t with
    | vStr s => simp only [getRequestedNodeLoop] at h; cases h; rfl
    | vUint n => simp only [getRequestedNodeLoop] at h; cases h; rfl
    | vInt n => simp only [getRequestedNodeLoop] at h; cases h; rfl
    | vNil => simp only [getRequestedNodeLoop] at h; cases h; rfl
    | vMap m =>
      simp only [getRequestedNodeLoop] at h
      cases hl : lookupA m el.name with
      | none => rw [hl] at h; cases h; rfl
      | some v =>
        rw [hl] at h
        cases v with
        | vNil => cases h; rfl
        | vStr s => exact ih _ e h
        | vUint n => exact ih _ e h
        | vInt n => exact ih _ e h
        | vMap m2 => exact ih _ e h
        | vArr zs => exact ih _ e h
    | vArr xs =>
      cases xs with
      | nil => simp [getRequestedNodeLoop] at h
      | cons x ys =>
        cases x with
        | vMap m =>
          simp only [getRequestedNodeLoop] at h
          cases hl : lookupA m el.name with
          | none => rw [hl] at h; cases h; rfl
          | some v =>
            rw [hl] at h
            cases v with
            | vNil => cases h; rfl
            | vStr s => exact ih _ e h
            | vUint n => exact ih _ e h
            | vInt n => exact ih _ e h
            | vMap m2 => exact ih _ e h
            | vArr zs => exact ih _ e h
        | vStr s => simp [getRequestedNodeLoop] at h
        | vUint n => simp [getRequestedNodeLoop] at h
        | vInt n => simp [getRequestedNodeLoop] at h
        | vNil => simp [getRequestedNodeLoop] at h
        | vArr zs => simp [getRequestedNodeLoop] at h

/-- Errors of `buildGnmiNotification` are `Internal`. -/
theorem buildGnmiNotification_err (entry : SchemaEntry) (v : NVal) (path : Path)
    (pfxO : Option Path) (now : Int) (e : GErr)
    (h : buildGnmiNotification entry v path pfxO now = some (Except.error e)) :
    e.code = GCode.internal := by
  unfold buildGnmiNotification at h
  by_cases h1 : entry.isLeaf
  · simp only [h1, if_true] at h
    cases hf : fromScalar v with
    | error msg => rw [hf] at h; cases h; rfl
    | ok tv => rw [hf] at h; cases h
  · simp only [h1, if_false] at h
    by_cases h2 : entry.isDir
    · simp only [h2, if_true] at h
      cases h
    · simp only [h2, if_false] at h
      cases h

/-- Errors of `netconfValueToGnmi` are `NotFound` or `Internal`. -/
theorem netconfValueToGnmi_err (a : Adapter) (o : RegexOracle) (entry : SchemaEntry)
    (result : List XmlTok) (path : Path) (pfxO : Option Path) (now : Int) (e : GErr)
    (h : netconfValueToGnmi a o entry result path pfxO now = some (Except.error e)) :
    e.code = GCode.notFound ∨ e.code = GCode.internal := by
  unfold netconfValueToGnmi at h
  cases hm : netconfXMLtoMap a o result with
  | none => rw [hm] at h; cases h
  | some m =>
    rw [hm] at h
    dsimp only at h
    cases hr : getRequestedNode (NVal.vMap m) path with
    | none => rw [hr] at h; cases h
    | some r =>
      rw [hr] at h
      cases r with
      | error e2 =>
        cases h
        have he := getRequestedNodeLoop_err path.elem (NVal.vMap m) e hr
        rw [he]
        left
        rfl
      | ok v => exact Or.inr (buildGnmiNotification_err entry v path pfxO now e h)

/-- Errors of `processPath` are never `Unimplemented`. -/
theorem processPath_err (a : Adapter) (o : RegexOracle) (dev : Device) (now : Int)
    (pfx : Option Path) (path : Path) (e : GErr) (tr : List DevCall)
    (h : processPath a o dev now pfx path = some (Except.error e, tr)) :
    e.code ≠ GCode.unimplemented := by
  simp only [processPath] at h
  generalize hfp : (match pfx with
                    | some p => gnmiFullPath p path
                    | none => path) = fp at h
  cases hs : getSchemaEntryForPath a.model.schemaTreeRoot fp with
  | none =>
    rw [hs] at h
    cases h
    simp
  | some entry =>
    rw [hs] at h
    dsimp only at h
    cases hg : executeGetConfig dev (pathToNetconfSubtree fp) with
    | error e2 =>
      rw [hg] at h
      cases h
      unfold executeGetConfig at hg
      cases hd : dev.getResp (pathToNetconfSubtree fp) with
      | error msg => rw [hd] at hg; cases hg; simp
      | ok r => rw [hd] at hg; cases hg
    | ok result =>
      rw [hg] at h
      dsimp only at h
      cases hn : netconfValueToGnmi a o entry result fp pfx now with
      | none => rw [hn] at h; cases h
      | some r =>
        rw [hn] at h
        cases r with
        | error e2 =>
          cases h
          rcases netconfValueToGnmi_err a o entry result fp pfx now e hn with hc | hc <;>
            simp [hc]
        | ok n => cases h

/-- Errors of the per-path loop are never `Unimplemented`. -/
theorem processPaths_err (a : Adapter) (o : RegexOracle) (dev : Device) (now : Int)
    (pfx : Option Path) :
    ∀ (paths : List Path) (e : GErr) (tr : List DevCall),
      processPaths a o dev now pfx paths = some (Except.error e, tr) →
      e.code ≠ GCode.unimplemented := by
  intro paths
  induction paths with
  | nil => intro e tr h; cases h
  | cons p ps ih =>
    intro e tr h
    rw [processPaths] at h
    cases hp : processPath a o dev now pfx p with
    | none => rw [hp] at h; cases h
    | some r =>
      rw [hp] at h
      obtain ⟨res, tr1⟩ := r
      cases res with
      | error e1 =>
        cases h
        exact processPath_err _ _ _ _ _ _ _ _ hp
      | ok n =>
        dsimp only at h
        cases hps : processPaths a o dev now pfx ps with
        | none => rw [hps] at h; cases h
        | some r2 =>
          rw [hps] at h
          obtain ⟨res2, tr2⟩ := r2
          cases res2 with
          | error e2 =>
            cases h
            exact ih e tr2 hps
          | ok ns => cases h

/-- The encoding/model check succeeds exactly when the encoding is JSON and
every requested model is one of the adapter's models. -/
theorem checkEncodingAndModel_none (a : Adapter) (enc : Encoding)
    (models : List ModelData) :
    checkEncodingAndModel a enc models = none
      ↔ (enc = Encoding.json ∧ ∀ m ∈ models, m ∈ a.model.modelData) := by
  unfold checkEncodingAndModel supportedEncodings
  constructor
  · intro h
    by_cases hc : [Encoding.json].contains enc
    · refine ⟨by simpa using hc, ?_⟩
      rw [if_pos hc] at h
      cases hf : models.find? (fun m => !(a.model.modelData.contains m)) with
      | none =>
        intro m hm
        have := List.find?_eq_none.mp hf m hm
        simpa using this
      | some x => rw [hf] at h; cases h
    · rw [if_neg hc] at h; cases h
  · rintro ⟨henc, hall⟩
    subst henc
    rw [if_pos (by simp)]
    rw [List.find?_eq_none.mpr]
    intro m hm
    simpa using hall m hm

/-- C7: a Get fails `Unimplemented` iff its encoding is not JSON or some
`useModels` entry equals no model of the adapter's model list; in that case
the failure happens before any device call and no notification is built
(the error, with an empty device-call trace, is the whole outcome). -/
theorem c7_get_unimplemented :
    (∀ (a : Adapter) (o : RegexOracle) (dev : Device) (now : Int) (req : GetRequest),
        (req.encoding ≠ Encoding.json ∨ ∃ m ∈ req.useModels, m ∉ a.model.modelData) →
        GetRpc a o dev now req
          = some (Except.error
                ⟨GCode.unimplemented,
                  (checkEncodingAndModel a req.encoding req.useModels).getD ""⟩, [])) ∧
    (∀ (a : Adapter) (o : RegexOracle) (dev : Device) (now : Int) (req : GetRequest)
        (e : GErr) (tr : List DevCall),
        GetRpc a o dev now req = some (Except.error e, tr) →
        e.code = GCode.unimplemented →
        (req.encoding ≠ Encoding.json ∨ ∃ m ∈ req.useModels, m ∉ a.model.modelData)) := by
  constructor
  · intro a o dev now req hbad
    have hne : checkEncodingAndModel a req.encoding req.useModels ≠ none := by
      intro hnone
      rcases (checkEncodingAndModel_none a req.encoding req.useModels).mp hnone with ⟨h1, h2⟩
      rcases hbad with hb | ⟨m, hm, hnm⟩
      · exact hb h1
      · exact hnm (h2 m hm)
    cases hc : checkEncodingAndModel a req.encoding req.useModels with
    | none => exact absurd hc hne
    | some msg =>
      unfold GetRpc
      rw [hc]
      rfl
  · intro a o dev now req e tr h hcode
    by_contra hgood
    push_neg at hgood
    have hnone : checkEncodingAndModel a req.encoding req.useModels = none :=
      (checkEncodingAndModel_none a req.encoding req.useModels).mpr ⟨hgood.1, by
        intro m hm
        by_contra hnm
        exact hnm (by
          rcases (hgood.2 m hm) with h2
          exact h2)⟩
    unfold GetRpc at h
    rw [hnone] at h
    exact processPaths_err a o dev now req.pfx _ e tr h hcode

theorem c7_witness :
    GetRpc adapterC oracleNone (devOk []) 0
        ⟨Encoding.proto, [], none, []⟩
      = some (Except.error
            ⟨GCode.unimplemented,
              (checkEncodingAndModel adapterC Encoding.proto []).getD ""⟩, []) :=
  c7_get_unimplemented.1 adapterC oracleNone (devOk []) 0
    ⟨Encoding.proto, [], none, []⟩ (Or.inl (by decide))

/-! ### C8 - elements outside the schema contribute nothing -/

/-- Running a concatenation of tokens is running the first part, then the
second (panics propagate). -/
theorem runToks_append (o : RegexOracle) :
    ∀ (xs ys : List XmlTok) (st : DecSt),
      runToks o st (xs ++ ys)
        = match runToks o st xs with
          | none => none
          | some st2 => runToks o st2 ys := by
  intro xs
  induction xs with
  | nil => intro ys st; rfl
  | cons t rest ih =>
    intro ys st
    simp only [List.cons_append, runToks]
    cases decodeStep o st t with
    | none => rfl
    | some st2 => exact ih ys st2

/-- A balanced token sequence processed while the current element is outside
the schema leaves the decoder state exactly unchanged: nothing is linked,
no character data is stored, and every pushed frame is popped again without
a write-back. -/
theorem runToks_unknown_seg (o : RegexOracle) :
    ∀ (seg : List XmlTok), Balanced seg →
      ∀ (m : List (String × NVal)) (rest : List Frame) (tp : List (String × NVal)),
        runToks o ⟨Frame.mk none m :: rest, tp⟩ seg = some ⟨Frame.mk none m :: rest, tp⟩ := by
  intro seg hb
  induction hb with
  | nil => intro m rest tp; rfl
  | elem n attrs inner rest2 hbi hbr ihi ihr =>
    intro m rest tp
    rw [runToks]
    rw [show decodeStep o ⟨Frame.mk none m :: rest, tp⟩ (XmlTok.start n attrs)
        = some ⟨Frame.mk none [] :: Frame.mk none m :: rest, tp⟩ from rfl]
    dsimp only
    rw [runToks_append o inner (XmlTok.endEl n :: rest2)]
    rw [ihi [] (Frame.mk none m :: rest) tp]
    dsimp only
    rw [runToks]
    rw [show decodeStep o ⟨Frame.mk none [] :: Frame.mk none m :: rest, tp⟩ (XmlTok.endEl n)
        = some ⟨Frame.mk none m :: rest, tp⟩ from rfl]
    dsimp only
    exact ihr m rest tp
  | cdata s rest2 hbr ihr =>
    intro m rest tp
    rw [runToks]
    rw [show decodeStep o ⟨Frame.mk none m :: rest, tp⟩ (XmlTok.chardata s)
        = some ⟨Frame.mk none m :: rest, tp⟩ from rfl]
    exact ihr m rest tp
  | comm s rest2 hbr ihr =>
    intro m rest tp
    rw [runToks]
    exact ihr m rest tp
  | proc s rest2 hbr ihr =>
    intro m rest tp
    rw [runToks]
    exact ihr m rest tp
  | dirv s rest2 hbr ihr =>
    intro m rest tp
    rw [runToks]
    exact ihr m rest tp

/-- C8: an element whose name the schema does not know (in the context where
it appears), together with its whole balanced subtree, contributes nothing
to the intermediate tree - decoding with the unknown element inserted gives
exactly the same map as decoding without it, so sibling elements before and
after it are decoded unchanged. -/
theorem c8_schema_filtering (a : Adapter) (o : RegexOracle)
    (pre seg post : List XmlTok) (u : String) (attrs : List (String × String))
    (hb : Balanced seg)
    (hu : ∀ st, runToks o (initDecSt a) pre = some st → topUnknown st u) :
    netconfXMLtoMap a o (pre ++ (XmlTok.start u attrs :: (seg ++ (XmlTok.endEl u :: post))))
      = netconfXMLtoMap a o (pre ++ post) := by
  unfold netconfXMLtoMap
  rw [runToks_append o pre (XmlTok.start u attrs :: (seg ++ (XmlTok.endEl u :: post))),
    runToks_append o pre post]
  cases hpre : runToks o (initDecSt a) pre with
  | none => rfl
  | some st =>
    dsimp only
    have htu := hu st hpre
    unfold topUnknown at htu
    obtain ⟨stk, tp⟩ := st
    cases hstk : stk with
    | nil =>
      subst hstk
      exact (show False from htu).elim
    | cons cur rest =>
      subst hstk
      have htu2 : (match cur.schema with
                   | some sc => getChildSchema u sc
                   | none => none) = (none : Option SchemaEntry) := htu
      rw [runToks]
      rw [show decodeStep o ⟨cur :: rest, tp⟩ (XmlTok.start u attrs)
          = some ⟨Frame.mk none [] :: cur :: rest, tp⟩ from by
        unfold decodeStep
        dsimp only
        rw [htu2]]
      dsimp only
      rw [runToks_append o seg (XmlTok.endEl u :: post)]
      rw [runToks_unknown_seg o seg hb [] (cur :: rest) tp]
      dsimp only
      rw [runToks]
      rw [show decodeStep o ⟨Frame.mk none [] :: cur :: rest, tp⟩ (XmlTok.endEl u)
          = some ⟨cur :: rest, tp⟩ from rfl]

theorem c8_witness :
    netconfXMLtoMap adapterC oracleNone
        (preC8 ++ (XmlTok.start "notintheschema" []
          :: ([XmlTok.chardata "XYZ"] ++ (XmlTok.endEl "notintheschema" :: postC8))))
      = netconfXMLtoMap adapterC oracleNone (preC8 ++ postC8) :=
  c8_schema_filtering adapterC oracleNone preC8 [XmlTok.chardata "XYZ"] postC8
    "notintheschema" []
    (Balanced.cdata "XYZ" [] Balanced.nil)
    (by
      intro st h
      rw [show runToks oracleNone (initDecSt adapterC) preC8 = some stC8 from rfl] at h
      cases h
      rfl)

end GN
